import Mathlib

/-!
Reference Top-K (`ngraph::runtime::reference::topk`).

A shallow embedding of `src/core/reference/include/ngraph/runtime/reference/topk.hpp`.

* Buffers (`const T* arg`, `U* out_indices`, `T* out_values`, the storage of the
  `workspace` vector) are functions from a position to the element stored there.
* Random access iterators are positions (`Nat`); a range is a pair `first last`.
* The value type `T` is any linearly ordered type (exactly comparable values; a
  floating point type with NaN is outside this model).
* The index type `U` is `Nat` (axis lengths are taken to fit the index type), an entry
  `std::tuple<T, U>` is `T × Nat`.
* `_sort` is recursive without a structural measure in the source; it carries a fuel
  argument and returns `none` when the fuel is used up.
* `std::nth_element` belongs to the standard library; `topk` takes it as an argument and
  the theorems assume its postcondition (`NthElementPost`).
* `CoordinateTransform` and `row_major_strides` are declared in headers that are not among
  the given sources; they are modelled from section 4.1 of the specification.
-/

namespace TopK

/-! ## Comparators (topk.hpp lines 19-44) -/

section Comparators

variable {T : Type} [LinearOrder T]

/-- Lexicographic `operator<` of `std::tuple<T, U>`. -/
def tuple_lt (a b : T × Nat) : Bool :=
  if a.1 < b.1 then true
  else if b.1 < a.1 then false
  else decide (a.2 < b.2)

/-- Lexicographic `operator>` of `std::tuple<T, U>`: `a > b` is `b < a`. -/
def tuple_gt (a b : T × Nat) : Bool := tuple_lt b a

/-- Source `compare_max`: equal values are decided by the lower index, everything else by
the tuple comparison `a > b`. -/
def compare_max (a b : T × Nat) : Bool :=
  if a.1 = b.1 then decide (a.2 < b.2)
  else tuple_gt a b

/-- Source `compare_min`: the tuple comparison `a < b`. -/
def compare_min (a b : T × Nat) : Bool := tuple_lt a b

/-- Source `sort_indices_ascending`: compares the index components only. -/
def sort_indices_ascending (a b : T × Nat) : Bool := decide (a.2 < b.2)

end Comparators

/-! ## The hand-written sort (topk.hpp lines 46-102) -/

section Sorting

variable {α : Type}

/-- Effect of `std::swap(*i, *j)` on a buffer. -/
def swap (m : Nat → α) (i j : Nat) : Nat → α :=
  fun x => if x = i then m j else if x = j then m i else m x

/-- Inner loop of `insertionsort` (lines 56-67). The argument is the position of
`current_element`; the loop variable `i` is the position just before it. The loop runs
while `i >= first` and stops at the first `comp(*i, *current_element)` that is false. -/
def insertionsort_inner (comp : α → α → Bool) (first : Nat) : Nat → (Nat → α) → (Nat → α)
  | 0, m => m
  | i + 1, m =>
    if first ≤ i then
      if comp (m i) (m (i + 1)) then insertionsort_inner comp first i (swap m i (i + 1))
      else m
    else m

/-- Source `insertionsort(first, last, comp)` (lines 48-69): the loop over `it` from
`first + 1` up to `last`. -/
def insertionsort (comp : α → α → Bool) (first last : Nat) (m : Nat → α) : Nat → α :=
  if first = last then m
  else
    (List.range' (first + 1) (last - (first + 1))).foldl
      (fun w it => insertionsort_inner comp first it w) m

/-- One iteration of the loop of `Partition` (lines 77-84); the state is `(less, buffer)`. -/
def Partition_step (comp : α → α → Bool) (pivotal : Nat) (st : Nat × (Nat → α)) (j : Nat) :
    Nat × (Nat → α) :=
  if comp (st.2 j) (st.2 pivotal) then (st.1 + 1, swap st.2 j st.1) else st

/-- Source `Partition(first, last, comp)` (lines 72-87): returns the iterator `less` and
the buffer after the final `std::swap(*less, *pivotal)`. -/
def Partition (comp : α → α → Bool) (first last : Nat) (m : Nat → α) : Nat × (Nat → α) :=
  let pivotal := last - 1
  let st := (List.range' first (pivotal - first)).foldl (Partition_step comp pivotal) (first, m)
  (st.1, swap st.2 st.1 pivotal)

/-- The value of `std::distance(first, last)`. -/
def distance (first last : Nat) : Int := (last : Int) - (first : Int)

/-- Source `_sort(first, last, comp)` (lines 90-102). The second recursive call is
`_sort(q++, last, comp)`: the post-increment passes the old value of `q`. -/
def _sort (comp : α → α → Bool) : Nat → Nat → Nat → (Nat → α) → Option (Nat → α)
  | 0, _, _, _ => none
  | fuel + 1, first, last, m =>
    if distance first last < 10 then some (insertionsort comp first last m)
    else if distance first last > 1 then
      let r := Partition comp first last m
      match _sort comp fuel first r.1 r.2 with
      | none => none
      | some m1 => _sort comp fuel r.1 last m1
    else some m

/-- The elements of the range `[first, last)` of a buffer, in order. -/
def contents (m : Nat → α) (first last : Nat) : List α :=
  (List.range' first (last - first)).map m

/-- The buffer `m2` is `m1` with the range `[first, last)` rearranged: nothing outside the
range differs and the range holds the same elements with the same multiplicities. -/
def PermOn (first last : Nat) (m1 m2 : Nat → α) : Prop :=
  (∀ x, x < first ∨ last ≤ x → m2 x = m1 x) ∧
    (contents m2 first last).Perm (contents m1 first last)

end Sorting

/-! ## Shapes, strides and lane enumeration -/

/-- Modelled from the spec: `ngraph::row_major_strides` (declared outside the given
sources). The stride of a dimension is the product of the sizes of the dimensions after
it. -/
def row_major_strides : List Nat → List Nat
  | [] => []
  | _ :: s => s.prod :: row_major_strides s

/-- Modelled from the spec: all coordinates of a shape in row-major order (the last
dimension varies fastest), as visited by iterating a `CoordinateTransform`. -/
def coordinates : List Nat → List (List Nat)
  | [] => [[]]
  | n :: s => (List.range n).flatMap (fun i => (coordinates s).map (fun c => i :: c))

/-- Modelled from the spec: the class `ngraph::CoordinateTransform` (declared outside the
given sources), restricted to what `topk` passes: start corner `0` and unit strides. -/
structure CoordinateTransform where
  source_shape : List Nat
  end_corner : List Nat
  axis_order : List Nat

/-- Modelled from the spec: the coordinates visited by `for (coord : transform)`. The
visited space has, in position `i`, the extent of source axis `axis_order[i]`. -/
def CoordinateTransform.coords (t : CoordinateTransform) : List (List Nat) :=
  coordinates (t.axis_order.map (fun a => t.end_corner.getD a 0))

/-- Modelled from the spec: `CoordinateTransform::index(coord)`, the row-major offset in
the source shape of the source coordinate whose axis `axis_order[i]` is `coord[i]`. -/
def CoordinateTransform.index (t : CoordinateTransform) (coord : List Nat) : Nat :=
  (List.zipWith (fun a c => c * (row_major_strides t.source_shape).getD a 0)
    t.axis_order coord).sum

/-! ## `topk` (topk.hpp lines 104-173) -/

/-- Source `op::v1::TopK::SortType`. -/
inductive SortType where
  | NONE
  | SORT_INDICES
  | SORT_VALUES
  deriving DecidableEq, Repr

section TopK

variable {T : Type} [LinearOrder T]

/-- Type of `std::nth_element(first, nth, last, comp)` acting on a buffer. -/
abbrev NthElement (T : Type) : Type :=
  (T × Nat → T × Nat → Bool) → Nat → Nat → Nat → (Nat → T × Nat) → (Nat → T × Nat)

/-- Fill loop (lines 139-145): the state is `(workspace, arg_index, i)`; one entry of
the workspace is written per iteration. -/
def gather (arg : Nat → T) (in_axis_stride L arg_index : Nat) (workspace : Nat → T × Nat) :
    Nat → T × Nat :=
  ((List.range L).foldl
    (fun (st : (Nat → T × Nat) × Nat × Nat) e =>
      (Function.update st.1 e (arg st.2.1, st.2.2), st.2.1 + in_axis_stride, st.2.2 + 1))
    (workspace, arg_index, 0)).1

/-- Selection and ordering of one workspace (lines 147-164). -/
def select_and_sort (nth_element : NthElement T) (fuel L k : Nat) (compute_max : Bool)
    (sort : SortType) (workspace : Nat → T × Nat) : Option (Nat → T × Nat) :=
  let selected :=
    if compute_max then nth_element compare_max 0 k L workspace
    else nth_element compare_min 0 k L workspace
  match sort with
  | SortType.NONE => some selected
  | SortType.SORT_INDICES => _sort sort_indices_ascending fuel 0 k selected
  | SortType.SORT_VALUES =>
    if compute_max then _sort compare_max fuel 0 k selected
    else _sort compare_min fuel 0 k selected

/-- Write loop (lines 165-170): the state is `(out_indices, out_values, out_index)`. -/
def write_out (k out_axis_stride : Nat) (workspace : Nat → T × Nat) (out_index : Nat)
    (out_indices : Nat → Nat) (out_values : Nat → T) : (Nat → Nat) × (Nat → T) :=
  let st := (List.range k).foldl
    (fun (st : (Nat → Nat) × (Nat → T) × Nat) j =>
      (Function.update st.1 st.2.2 (workspace j).2,
       Function.update st.2.1 st.2.2 (workspace j).1,
       st.2.2 + out_axis_stride))
    (out_indices, out_values, out_index)
  (st.1, st.2.1)

/-- Body of the loop over lanes (lines 136-170) for one coordinate. The state is
`(workspace, out_indices, out_values)`. -/
def lane_body (nth_element : NthElement T) (fuel : Nat) (arg : Nat → T)
    (input_transform output_transform : CoordinateTransform)
    (L in_axis_stride out_axis_stride k : Nat) (compute_max : Bool) (sort : SortType)
    (st : (Nat → T × Nat) × (Nat → Nat) × (Nat → T)) (coord : List Nat) :
    Option ((Nat → T × Nat) × (Nat → Nat) × (Nat → T)) :=
  let arg_index := input_transform.index coord
  let out_index := output_transform.index coord
  let filled := gather arg in_axis_stride L arg_index st.1
  match select_and_sort nth_element fuel L k compute_max sort filled with
  | none => none
  | some workspace =>
    let out := write_out k out_axis_stride workspace out_index st.2.1 st.2.2
    some (workspace, out.1, out.2)

/-- The loop over all lanes (line 135). -/
def lanes_loop (nth_element : NthElement T) (fuel : Nat) (arg : Nat → T)
    (input_transform output_transform : CoordinateTransform)
    (L in_axis_stride out_axis_stride k : Nat) (compute_max : Bool) (sort : SortType) :
    List (List Nat) → (Nat → T × Nat) × (Nat → Nat) × (Nat → T) →
      Option ((Nat → T × Nat) × (Nat → Nat) × (Nat → T))
  | [], st => some st
  | coord :: rest, st =>
    match lane_body nth_element fuel arg input_transform output_transform
        L in_axis_stride out_axis_stride k compute_max sort st coord with
    | none => none
    | some st1 =>
      lanes_loop nth_element fuel arg input_transform output_transform
        L in_axis_stride out_axis_stride k compute_max sort rest st1

/-- Axis visit order of `topk` (lines 122-125): all axes but `axis`, then `axis`. -/
def topk_axis_order (ndim axis : Nat) : List Nat :=
  (List.range ndim).eraseIdx axis ++ [axis]

/-- The `input_transform` of `topk` (lines 117-127): the end corner is `in_shape` with `1`
at `axis`, so that only the first element of every lane is visited. -/
def topk_input_transform (in_shape : List Nat) (axis : Nat) : CoordinateTransform :=
  ⟨in_shape, in_shape.set axis 1, topk_axis_order in_shape.length axis⟩

/-- The `output_transform` of `topk` (line 128): the same corners and axis order over
`out_shape`. -/
def topk_output_transform (in_shape out_shape : List Nat) (axis : Nat) : CoordinateTransform :=
  ⟨out_shape, in_shape.set axis 1, topk_axis_order in_shape.length axis⟩

/-- The entry `strides[axis]` of the row-major strides of a shape (lines 131-134). -/
def axis_stride_of (shape : List Nat) (axis : Nat) : Nat :=
  (row_major_strides shape).getD axis 0

/-- Source `topk` (lines 105-173). Returns the final `(out_indices, out_values)`. The
workspace starts value-initialised. -/
def topk [Inhabited T] (nth_element : NthElement T) (fuel : Nat) (arg : Nat → T)
    (out_indices : Nat → Nat) (out_values : Nat → T) (in_shape out_shape : List Nat)
    (axis k : Nat) (compute_max : Bool) (sort : SortType) :
    Option ((Nat → Nat) × (Nat → T)) :=
  let input_transform := topk_input_transform in_shape axis
  let output_transform := topk_output_transform in_shape out_shape axis
  let workspace : Nat → T × Nat := fun _ => (default, 0)
  let in_axis_stride := axis_stride_of in_shape axis
  let out_axis_stride := axis_stride_of out_shape axis
  match lanes_loop nth_element fuel arg input_transform output_transform
      (in_shape.getD axis 0) in_axis_stride out_axis_stride k compute_max sort
      input_transform.coords (workspace, out_indices, out_values) with
  | none => none
  | some st => some (st.2.1, st.2.2)

end TopK

/-! ## Predicates used to state the properties -/

section SortSpecs

variable {α : Type}

/-- Loop invariant of `Partition` when the loop variable is `j`. -/
structure PartitionInv (comp : α → α → Bool) (first last : Nat) (m : Nat → α) (j : Nat)
    (st : Nat × (Nat → α)) : Prop where
  less_ge : first ≤ st.1
  less_le : st.1 ≤ j
  perm : PermOn first last m st.2
  rest : ∀ x, j ≤ x → st.2 x = m x
  ahead : ∀ x, first ≤ x → x < st.1 → comp (st.2 x) (m (last - 1)) = true
  behind : ∀ x, st.1 ≤ x → x < j → comp (st.2 x) (m (last - 1)) = false
  moved : first < j → comp (m first) (m (last - 1)) = true → first < st.1

/-- Postcondition of `Partition` on a non-empty range. -/
structure PartitionPost (comp : α → α → Bool) (first last : Nat) (m : Nat → α)
    (r : Nat × (Nat → α)) : Prop where
  q_ge : first ≤ r.1
  q_lt : r.1 < last
  perm : PermOn first last m r.2
  pivot : r.2 r.1 = m (last - 1)
  ahead : ∀ x, first ≤ x → x < r.1 → comp (r.2 x) (m (last - 1)) = true
  behind : ∀ x, r.1 < x → x < last → comp (r.2 x) (m (last - 1)) = false
  moved : first < last - 1 → comp (m first) (m (last - 1)) = true → first < r.1

end SortSpecs

section TotalSpec

variable {α : Type}

/-- Any two different positions of the range `[first, last)` hold elements that `comp`
orders one way or the other. -/
def TotalOn (comp : α → α → Bool) (first last : Nat) (m : Nat → α) : Prop :=
  ∀ x y, first ≤ x → x < last → first ≤ y → y < last → x ≠ y →
    comp (m x) (m y) = true ∨ comp (m y) (m x) = true

end TotalSpec

section SelectionSpec

variable {T : Type} [LinearOrder T]

/-- The selection relation in the words of the specification (section 4.3): with
`compute_max` the larger value ranks first and equal values rank by the lower index;
otherwise the pairs `(value, index)` rank in ascending lexicographic order. -/
def ranks_before (compute_max : Bool) (a b : T × Nat) : Prop :=
  if compute_max then a.1 > b.1 ∨ (a.1 = b.1 ∧ a.2 < b.2)
  else a.1 < b.1 ∨ (a.1 = b.1 ∧ a.2 < b.2)

instance ranks_before_decidable (compute_max : Bool) (a b : T × Nat) :
    Decidable (ranks_before compute_max a b) := by
  unfold ranks_before
  exact inferInstance

/-- The comparator `topk` hands to `std::nth_element` (lines 147-151). -/
def selection_comp (compute_max : Bool) : T × Nat → T × Nat → Bool :=
  if compute_max then compare_max else compare_min

/-- Postcondition of `std::nth_element(first, nth, last, comp)` for the two comparators
`topk` uses: the range is rearranged, nothing happens when `nth == last`, and no element
at or after `nth` is ordered before an element in front of `nth`. -/
def NthElementPost (nth_element : NthElement T) : Prop :=
  ∀ (compute_max : Bool) (first nth last : Nat) (m : Nat → T × Nat),
    first ≤ nth → nth ≤ last →
    PermOn first last m (nth_element (selection_comp compute_max) first nth last m) ∧
    (nth = last → nth_element (selection_comp compute_max) first nth last m = m) ∧
    ∀ i j, first ≤ i → i < nth → nth ≤ j → j < last →
      selection_comp compute_max
        (nth_element (selection_comp compute_max) first nth last m j)
        (nth_element (selection_comp compute_max) first nth last m i) = false

end SelectionSpec

section Reference

variable {α : Type}

/-- Stores the list `l` into the buffer at positions `first, first + 1, ...`. -/
def write_back (m : Nat → α) (first : Nat) (l : List α) : Nat → α :=
  fun x => if first ≤ x ∧ x < first + l.length then l.getD (x - first) (m x) else m x

/-- A realisation of `std::nth_element` (used to instantiate the argument of `topk` on
concrete inputs): it fully sorts the range, except that nothing is done when
`nth == last`. -/
def nth_element_by_sorting (comp : α → α → Bool) (first nth last : Nat) (m : Nat → α) :
    Nat → α :=
  if nth = last then m
  else write_back m first ((contents m first last).insertionSort (fun a b => comp b a = false))

end Reference

/-- The output offsets written for one lane whose first output offset is `out_index`
(lines 165-170): `out_index + j * out_axis_stride` for `j = 0, ..., k - 1`. -/
def lane_positions (k axis_stride index : Nat) : List Nat :=
  (List.range k).map (fun j => index + j * axis_stride)

/-- The offsets touched in a buffer over all lanes, in the order of the loops: `lanes` are
the coordinates the loop of line 135 visits, `t` is the transform of the buffer. -/
def all_positions (lanes : List (List Nat)) (t : CoordinateTransform) (k axis_stride : Nat) :
    List Nat :=
  lanes.flatMap (fun c => lane_positions k axis_stride (t.index c))

/-- Row-major offset of a coordinate for given strides: the sum of coordinate times
stride over the dimensions. -/
def linear_index (strides coord : List Nat) : Nat :=
  (List.zipWith (fun s x => x * s) strides coord).sum

/-- The transform `topk` builds for a buffer of shape `pre ++ n :: post` when the axis is
`pre.length` and the input shape is `pre ++ L :: post`: the end corner is the input shape
with `1` at the axis (line 120), the axis order is that of lines 122-125. -/
def axis_transform (pre post : List Nat) (n : Nat) : CoordinateTransform :=
  ⟨pre ++ n :: post, pre ++ 1 :: post, topk_axis_order (pre.length + 1 + post.length) pre.length⟩

section LaneSpec

variable {T : Type} [LinearOrder T]

/-- What one lane's workspace satisfies after selection and ordering: it is a
rearrangement of the gathered lane, and none of the entries from position `k` on is ranked
before one of the first `k` entries. -/
def LanePost (arg : Nat → T) (in_axis_stride L arg_index k : Nat) (compute_max : Bool)
    (ws : Nat → T × Nat) : Prop :=
  (∃ w, PermOn 0 L (gather arg in_axis_stride L arg_index w) ws) ∧
  ∀ i j, i < k → k ≤ j → j < L → selection_comp compute_max (ws j) (ws i) = false

end LaneSpec

section TopSpec

variable {T : Type} [LinearOrder T]

/-- The workspace entry of position `i` of the lane that starts at `offset`. -/
def lane_entry (arg : Nat → T) (offset stride i : Nat) : T × Nat :=
  (arg (offset + i * stride), i)

/-- The number of entries of the lane that rank before the entry of position `i`. -/
def lane_rank (compute_max : Bool) (arg : Nat → T) (offset stride L i : Nat) : Nat :=
  ((Finset.range L).filter (fun i2 =>
    ranks_before compute_max (lane_entry arg offset stride i2) (lane_entry arg offset stride i))).card

/-- The positions of the `k` entries of the lane that rank first. -/
def top_indices (compute_max : Bool) (arg : Nat → T) (offset stride L k : Nat) : Finset Nat :=
  (Finset.range L).filter (fun i => lane_rank compute_max arg offset stride L i < k)

end TopSpec

/-- The lane `[3, 1, 3, 2]` of the scenarios of the specification, as an input buffer. -/
def scenario_lane : Nat → Nat := fun i => [3, 1, 3, 2].getD i 0

/-- The input `[[1, 5, 2], [9, 0, 4]]` of the multi-dimensional scenario, row-major. -/
def scenario_matrix : Nat → Nat := fun i => [1, 5, 2, 9, 0, 4].getD i 0

/-- The first `n` elements of both output buffers of a run of `topk`. -/
def outputs {T : Type} (n : Nat) (r : Option ((Nat → Nat) × (Nat → T))) :
    Option (List Nat × List T) :=
  r.map (fun p => ((List.range n).map p.1, (List.range n).map p.2))

/-- The relation `a < b` on numbers, as a comparator. -/
def nat_less (a b : Nat) : Bool := decide (a < b)

/-- The buffer that holds the elements of a list from position `0` on. -/
def buffer_of (l : List Nat) : Nat → Nat := fun i => l.getD i 0

section OrderSpec

variable {α : Type}

/-- The relation `comp` is a strict total order on the elements of the range
`[first, last)`, and these are pairwise distinct: `comp` is irreflexive and transitive on
them, and the elements at two different positions are ordered one way or the other. -/
structure StrictTotalOn (comp : α → α → Bool) (first last : Nat) (m : Nat → α) : Prop where
  irrefl : ∀ a ∈ contents m first last, comp a a = false
  trans : ∀ a ∈ contents m first last, ∀ b ∈ contents m first last,
    ∀ c ∈ contents m first last, comp a b = true → comp b c = true → comp a c = true
  total : TotalOn comp first last m

end OrderSpec

/-- The recursion step as the specification describes it (section 9): `Partition` giving
`q`, then `_sort` on `[first, q)` and `_sort` on `[q + 1, last)`, so that the slot `q` of
the pivot belongs to neither call. -/
def sort_around_pivot {α : Type} (comp : α → α → Bool) (fuel first last : Nat)
    (m : Nat → α) : Option (Nat → α) :=
  let r := Partition comp first last m
  match _sort comp fuel first r.1 r.2 with
  | none => none
  | some m1 => _sort comp fuel (r.1 + 1) last m1

/-- The two entries `(3, 0)`, `(3, 2)` that the SORT_VALUES scenario of the specification
expects, in this order, for `compute_max = true`. -/
def scenario_pair_sorted : Nat → Nat × Nat := fun i => [(3, 0), (3, 2)].getD i (0, 0)

/-! ## Properties -/

/-! ## Buffers, ranges and rearrangements -/

section RangeLemmas

variable {α : Type}

theorem contents_append (m : Nat → α) {a b c : Nat} (hab : a ≤ b) (hbc : b ≤ c) :
    contents m a c = contents m a b ++ contents m b c := by
  unfold contents
  rw [← List.map_append]
  congr 1
  have h := List.range'_append a (b - a) (c - b) 1
  rw [show a + 1 * (b - a) = b by omega, show c - b + (b - a) = c - a by omega] at h
  exact h.symm

theorem contents_congr {m m' : Nat → α} {a b : Nat} (h : ∀ x, a ≤ x → x < b → m' x = m x) :
    contents m' a b = contents m a b := by
  unfold contents
  apply List.map_congr_left
  intro x hx
  rw [List.mem_range'_1] at hx
  exact h x hx.1 (by omega)

theorem mem_contents {m : Nat → α} {a b : Nat} {v : α} :
    v ∈ contents m a b ↔ ∃ x, a ≤ x ∧ x < b ∧ m x = v := by
  unfold contents
  simp only [List.mem_map, List.mem_range'_1]
  constructor
  · rintro ⟨x, ⟨h1, h2⟩, h3⟩
    exact ⟨x, h1, by omega, h3⟩
  · rintro ⟨x, h1, h2, h3⟩
    exact ⟨x, ⟨h1, by omega⟩, h3⟩

theorem length_contents (m : Nat → α) (a b : Nat) : (contents m a b).length = b - a := by
  simp [contents]

theorem PermOn.refl (first last : Nat) (m : Nat → α) : PermOn first last m m :=
  ⟨fun _ _ => rfl, List.Perm.refl _⟩

theorem PermOn.trans {first last : Nat} {m1 m2 m3 : Nat → α}
    (h12 : PermOn first last m1 m2) (h23 : PermOn first last m2 m3) : PermOn first last m1 m3 :=
  ⟨fun x hx => (h23.1 x hx).trans (h12.1 x hx), h23.2.trans h12.2⟩

theorem PermOn.mono {first last first' last' : Nat} {m m' : Nat → α}
    (h : PermOn first last m m') (hf : first' ≤ first) (hfl : first ≤ last) (hl : last ≤ last') :
    PermOn first' last' m m' := by
  refine ⟨fun x hx => h.1 x (by omega), ?_⟩
  rw [contents_append m' (Nat.le_trans hf hfl) hl, contents_append m' hf hfl,
    contents_append m (Nat.le_trans hf hfl) hl, contents_append m hf hfl]
  have e1 : contents m' first' first = contents m first' first :=
    contents_congr (fun x _ h2 => h.1 x (Or.inl h2))
  have e2 : contents m' last last' = contents m last last' :=
    contents_congr (fun x h1 _ => h.1 x (Or.inr h1))
  rw [e1, e2]
  exact (h.2.append_left _).append_right _

theorem swap_eq_comp (m : Nat → α) (i j : Nat) : swap m i j = m ∘ (Equiv.swap i j) := by
  funext x
  simp only [swap, Function.comp, Equiv.swap_apply_def]
  split_ifs <;> rfl

theorem swap_permOn {first last : Nat} (m : Nat → α) {i j : Nat}
    (hi1 : first ≤ i) (hi2 : i < last) (hj1 : first ≤ j) (hj2 : j < last) :
    PermOn first last m (swap m i j) := by
  constructor
  · intro x hx
    simp only [swap]
    rw [if_neg (by omega), if_neg (by omega)]
  · rw [swap_eq_comp]
    unfold contents
    rw [← List.map_map]
    apply List.Perm.map
    rw [List.perm_ext_iff_of_nodup ((List.nodup_range' _ _).map (Equiv.injective _)) (List.nodup_range' _ _)]
    intro a
    simp only [List.mem_map, List.mem_range'_1]
    constructor
    · rintro ⟨x, hx, rfl⟩
      rw [Equiv.swap_apply_def]
      split_ifs <;> omega
    · intro ha
      refine ⟨Equiv.swap i j a, ?_, by simp⟩
      rw [Equiv.swap_apply_def]
      split_ifs <;> omega

end RangeLemmas

/-! ## The sort: rearrangement and `Partition` -/

section SortLemmas

variable {α : Type}

theorem insertionsort_inner_permOn (comp : α → α → Bool) (first last : Nat) :
    ∀ (cur : Nat) (m : Nat → α), cur < last →
      PermOn first last m (insertionsort_inner comp first cur m) := by
  intro cur
  induction cur with
  | zero => intro m _; exact PermOn.refl _ _ _
  | succ i ih =>
    intro m hlt
    unfold insertionsort_inner
    split_ifs with h1 h2
    · exact (swap_permOn m h1 (by omega) (by omega) hlt).trans (ih _ (by omega))
    · exact PermOn.refl _ _ _
    · exact PermOn.refl _ _ _

theorem foldl_permOn {first last : Nat} (f : (Nat → α) → Nat → (Nat → α)) (l : List Nat)
    (hf : ∀ it ∈ l, ∀ w, PermOn first last w (f w it)) :
    ∀ m, PermOn first last m (l.foldl f m) := by
  induction l with
  | nil => intro m; exact PermOn.refl _ _ _
  | cons a t ih =>
    intro m
    rw [List.foldl_cons]
    exact (hf a (List.mem_cons_self _ _) m).trans
      (ih (fun it hit w => hf it (List.mem_cons_of_mem _ hit) w) _)

theorem insertionsort_permOn (comp : α → α → Bool) (first last : Nat) (m : Nat → α) :
    PermOn first last m (insertionsort comp first last m) := by
  unfold insertionsort
  split_ifs with h
  · exact PermOn.refl _ _ _
  · apply foldl_permOn
    intro it hit w
    rw [List.mem_range'_1] at hit
    exact insertionsort_inner_permOn comp first last it w (by omega)

theorem insertionsort_empty (comp : α → α → Bool) (first : Nat) (m : Nat → α) :
    insertionsort comp first first m = m := by
  simp [insertionsort]

theorem insertionsort_single (comp : α → α → Bool) (first : Nat) (m : Nat → α) :
    insertionsort comp first (first + 1) m = m := by
  simp [insertionsort]

theorem Partition_step_inv (comp : α → α → Bool) (first last : Nat) (m : Nat → α) (j : Nat)
    (st : Nat × (Nat → α)) (hj1 : first ≤ j) (hj : j < last - 1)
    (h : PartitionInv comp first last m j st) :
    PartitionInv comp first last m (j + 1) (Partition_step comp (last - 1) st j) := by
  obtain ⟨less, w⟩ := st
  have hp : w (last - 1) = m (last - 1) := h.rest _ (by omega)
  have hwj : w j = m j := h.rest _ (Nat.le_refl _)
  have h1 := h.less_ge
  have h2 := h.less_le
  simp only at h1 h2 hp hwj
  unfold Partition_step
  simp only [hp, hwj]
  by_cases hc : comp (m j) (m (last - 1)) = true
  · rw [if_pos hc]
    refine ⟨by simp only; omega, by simp only; omega, ?_, ?_, ?_, ?_, ?_⟩
    · exact h.perm.trans (swap_permOn w hj1 (by omega) h1 (by omega))
    · intro x hx
      simp only [swap]
      rw [if_neg (by omega), if_neg (by omega)]
      exact h.rest x (by omega)
    · intro x hx1 hx2
      simp only at hx2
      simp only [swap]
      by_cases e1 : x = j
      · rw [if_pos e1]
        by_cases e2 : less = j
        · rw [e2, hwj]; exact hc
        · exact h.ahead less h1 (by omega)
      · rw [if_neg e1]
        by_cases e2 : x = less
        · rw [if_pos e2, hwj]; exact hc
        · rw [if_neg e2]
          exact h.ahead x hx1 (by simp only; omega)
    · intro x hx1 hx2
      simp only at hx1
      simp only [swap]
      by_cases e1 : x = j
      · rw [if_pos e1]
        exact h.behind less (Nat.le_refl _) (by omega)
      · rw [if_neg e1, if_neg (by omega)]
        exact h.behind x (by simp only; omega) (by omega)
    · intro _ _
      simp only
      omega
  · rw [if_neg hc]
    refine ⟨h1, by simp only; omega, h.perm, ?_, h.ahead, ?_, ?_⟩
    · intro x hx
      exact h.rest x (by omega)
    · intro x hx1 hx2
      by_cases e1 : x = j
      · simp only [e1, hwj]
        simpa using hc
      · exact h.behind x hx1 (by omega)
    · intro hlt hcm
      by_cases e1 : j = first
      · rw [e1] at hc
        exact absurd hcm hc
      · exact h.moved (by omega) hcm

theorem Partition_loop_inv (comp : α → α → Bool) (first last : Nat) (m : Nat → α) :
    ∀ (n j : Nat) (st : Nat × (Nat → α)), first ≤ j → j + n ≤ last - 1 →
      PartitionInv comp first last m j st →
      PartitionInv comp first last m (j + n)
        ((List.range' j n).foldl (Partition_step comp (last - 1)) st) := by
  intro n
  induction n with
  | zero => intro j st _ _ h; simpa using h
  | succ n ih =>
    intro j st hj1 hj2 h
    rw [List.range'_succ, List.foldl_cons]
    have := ih (j + 1) _ (by omega) (by omega)
      (Partition_step_inv comp first last m j st hj1 (by omega) h)
    rw [show j + 1 + n = j + (n + 1) by omega] at this
    exact this

theorem PartitionInv_init (comp : α → α → Bool) (first last : Nat) (m : Nat → α) :
    PartitionInv comp first last m first (first, m) :=
  ⟨Nat.le_refl _, Nat.le_refl _, PermOn.refl _ _ _, fun _ _ => rfl,
    fun x h1 h2 => absurd (show x < first from h2) (by omega),
    fun x h1 h2 => absurd (show x < first from h2) (by omega),
    fun h _ => absurd h (Nat.lt_irrefl _)⟩

theorem Partition_post (comp : α → α → Bool) (first last : Nat) (m : Nat → α)
    (h : first < last) : PartitionPost comp first last m (Partition comp first last m) := by
  have inv := Partition_loop_inv comp first last m (last - 1 - first) first (first, m)
    (Nat.le_refl _) (by omega) (PartitionInv_init comp first last m)
  rw [show first + (last - 1 - first) = last - 1 by omega] at inv
  unfold Partition
  simp only
  generalize (List.range' first (last - 1 - first)).foldl (Partition_step comp (last - 1))
    (first, m) = st at inv
  obtain ⟨less, w⟩ := st
  have h1 := inv.less_ge
  have h2 := inv.less_le
  simp only at h1 h2
  have hp : w (last - 1) = m (last - 1) := inv.rest _ (Nat.le_refl _)
  refine ⟨h1, by simp only; omega, ?_, ?_, ?_, ?_, ?_⟩
  · exact inv.perm.trans (swap_permOn w h1 (by omega) (by omega) (by omega))
  · simp only [swap, if_true, hp]
  · intro x hx1 hx2
    simp only at hx2
    simp only [swap]
    rw [if_neg (by omega), if_neg (by omega)]
    exact inv.ahead x hx1 hx2
  · intro x hx1 hx2
    simp only at hx1
    simp only [swap]
    rw [if_neg (by omega)]
    by_cases e : x = last - 1
    · rw [if_pos e]
      exact inv.behind less (Nat.le_refl _) (by omega)
    · rw [if_neg e]
      exact inv.behind x (by simp only; omega) (by omega)
  · intro hlt hc
    exact inv.moved hlt hc

end SortLemmas

/-! ## Termination of `_sort` -/

section SortTermination

variable {α : Type}

theorem totalOn_iff_pairwise (comp : α → α → Bool) (first last : Nat) (m : Nat → α) :
    TotalOn comp first last m ↔
      (contents m first last).Pairwise (fun a b => comp a b = true ∨ comp b a = true) := by
  unfold contents
  rw [List.pairwise_map]
  constructor
  · intro h
    apply (List.nodup_range' first (last - first)).pairwise_of_forall_ne
    intro a ha b hb hab
    rw [List.mem_range'_1] at ha hb
    exact h a b ha.1 (by omega) hb.1 (by omega) hab
  · intro h x y hx1 hx2 hy1 hy2 hxy
    have hsym : Symmetric (fun a b : Nat => comp (m a) (m b) = true ∨ comp (m b) (m a) = true) :=
      fun a b hab => hab.symm
    exact h.forall hsym (List.mem_range'_1.mpr ⟨hx1, by omega⟩)
      (List.mem_range'_1.mpr ⟨hy1, by omega⟩) hxy

theorem TotalOn.permOn {comp : α → α → Bool} {first last : Nat} {m m' : Nat → α}
    (h : TotalOn comp first last m) (hp : PermOn first last m m') :
    TotalOn comp first last m' := by
  rw [totalOn_iff_pairwise] at h ⊢
  exact (hp.2.pairwise_iff (fun hab => hab.symm)).mpr h

theorem TotalOn.sub {comp : α → α → Bool} {first last first' last' : Nat} {m : Nat → α}
    (h : TotalOn comp first last m) (hf : first ≤ first') (hl : last' ≤ last) :
    TotalOn comp first' last' m :=
  fun x y hx1 hx2 hy1 hy2 hxy => h x y (by omega) (by omega) (by omega) (by omega) hxy

theorem sort_small (comp : α → α → Bool) (fuel first last : Nat) (m : Nat → α)
    (h : last - first < 10) :
    _sort comp (fuel + 1) first last m = some (insertionsort comp first last m) := by
  unfold _sort
  rw [if_pos (by unfold distance; omega)]

theorem sort_large (comp : α → α → Bool) (fuel first last : Nat) (m : Nat → α)
    (h : 10 ≤ last - first) :
    _sort comp (fuel + 1) first last m =
      match _sort comp fuel first (Partition comp first last m).1
          (Partition comp first last m).2 with
      | none => none
      | some m1 => _sort comp fuel (Partition comp first last m).1 last m1 := by
  conv_lhs => unfold _sort
  rw [if_neg (by unfold distance; omega), if_pos (by unfold distance; omega)]
  try rfl

/-- Both recursive calls succeed once `Partition` has returned `q > first`. -/
theorem sort_split (comp : α → α → Bool) (fuel first last : Nat) (m : Nat → α)
    (h10 : 10 ≤ last - first) (hq : first < (Partition comp first last m).1)
    (htot : TotalOn comp first last m)
    (ih : ∀ f l w, f ≤ l → l - f < last - first → TotalOn comp f l w →
      ∃ w', _sort comp fuel f l w = some w' ∧ PermOn f l w w') :
    ∃ m', _sort comp (fuel + 1) first last m = some m' ∧ PermOn first last m m' := by
  have post := Partition_post comp first last m (by omega)
  rw [sort_large comp fuel first last m h10]
  generalize Partition comp first last m = r at post hq
  obtain ⟨q, m1⟩ := r
  have hq1 := post.q_ge
  have hq2 := post.q_lt
  simp only at hq hq1 hq2 ⊢
  have t1 : TotalOn comp first last m1 := htot.permOn post.perm
  obtain ⟨m2, e2, p2⟩ := ih first q m1 hq1 (by omega) (t1.sub (Nat.le_refl _) (by omega))
  have p2' : PermOn first last m1 m2 := p2.mono (Nat.le_refl _) hq1 (by omega)
  have t2 : TotalOn comp first last m2 := t1.permOn p2'
  obtain ⟨m3, e3, p3⟩ := ih q last m2 (by omega) (by omega) (t2.sub hq1 (Nat.le_refl _))
  have p3' : PermOn first last m2 m3 := p3.mono hq1 (by omega) (Nat.le_refl _)
  rw [e2]
  exact ⟨m3, e3, (post.perm.trans p2').trans p3'⟩

/-- Termination and rearrangement for a range of `n` pairwise comparable elements: fuel
`2 * n + 1` is enough when the first element is ranked ahead of all others, fuel
`2 * n + 2` is enough in general. -/
theorem sort_terminates_aux (comp : α → α → Bool) :
    ∀ (n fuel first last : Nat) (m : Nat → α), first ≤ last → last - first = n →
      TotalOn comp first last m →
      ((∀ x, first < x → x < last → comp (m first) (m x) = true) → 2 * n + 1 ≤ fuel →
        ∃ m', _sort comp fuel first last m = some m' ∧ PermOn first last m m') ∧
      (2 * n + 2 ≤ fuel →
        ∃ m', _sort comp fuel first last m = some m' ∧ PermOn first last m m') := by
  intro n
  induction n using Nat.strong_induction_on with
  | _ n ih =>
    intro fuel first last m hfl hn htot
    by_cases hsmall : n < 10
    · constructor
      · intro _ hfuel
        obtain ⟨f, rfl⟩ : ∃ f, fuel = f + 1 := ⟨fuel - 1, by omega⟩
        rw [sort_small comp f first last m (by omega)]
        exact ⟨_, rfl, insertionsort_permOn comp first last m⟩
      · intro hfuel
        obtain ⟨f, rfl⟩ : ∃ f, fuel = f + 1 := ⟨fuel - 1, by omega⟩
        rw [sort_small comp f first last m (by omega)]
        exact ⟨_, rfl, insertionsort_permOn comp first last m⟩
    · have ihB : ∀ fuel', 2 * n ≤ fuel' → ∀ f l w, f ≤ l → l - f < last - first →
          TotalOn comp f l w → ∃ w', _sort comp fuel' f l w = some w' ∧ PermOn f l w w' := by
        intro fuel' hfuel' f l w hfl' hlt ht
        exact (ih (l - f) (by omega) fuel' f l w hfl' rfl ht).2 (by omega)
      have partA : ∀ (fuel : Nat) (m : Nat → α), TotalOn comp first last m →
          (∀ x, first < x → x < last → comp (m first) (m x) = true) → 2 * n + 1 ≤ fuel →
          ∃ m', _sort comp fuel first last m = some m' ∧ PermOn first last m m' := by
        intro fuel m htot hbest hfuel
        obtain ⟨f, rfl⟩ : ∃ f, fuel = f + 1 := ⟨fuel - 1, by omega⟩
        have post := Partition_post comp first last m (by omega)
        have hq : first < (Partition comp first last m).1 :=
          post.moved (by omega) (hbest (last - 1) (by omega) (by omega))
        exact sort_split comp f first last m (by omega) hq htot (ihB f (by omega))
      refine ⟨partA fuel m htot, ?_⟩
      intro hfuel
      obtain ⟨f, rfl⟩ : ∃ f, fuel = f + 1 := ⟨fuel - 1, by omega⟩
      have post := Partition_post comp first last m (by omega)
      by_cases hq : first < (Partition comp first last m).1
      · exact sort_split comp f first last m (by omega) hq htot (ihB f (by omega))
      · have hq0 : (Partition comp first last m).1 = first := by
          have := post.q_ge
          omega
        rw [sort_large comp f first last m (by omega), hq0]
        obtain ⟨f', rfl⟩ : ∃ f', f = f' + 1 := ⟨f - 1, by omega⟩
        rw [sort_small comp f' first first _ (by omega), insertionsort_empty]
        simp only
        have t1 : TotalOn comp first last (Partition comp first last m).2 :=
          htot.permOn post.perm
        have hbest : ∀ x, first < x → x < last →
            comp ((Partition comp first last m).2 first) ((Partition comp first last m).2 x)
              = true := by
          intro x hx1 hx2
          have hb := post.behind x (by omega) hx2
          have hp := post.pivot
          rw [hq0] at hp
          rw [← hp] at hb
          rcases t1 first x (Nat.le_refl _) (by omega) (by omega) hx2 (by omega) with h | h
          · exact h
          · rw [hb] at h; exact absurd h (by simp)
        obtain ⟨m', e, p⟩ := partA (f' + 1) _ t1 hbest (by omega)
        exact ⟨m', e, post.perm.trans p⟩

/-- `_sort` returns on every range of pairwise comparable elements, and what it returns is
a rearrangement of the range. -/
theorem sort_terminates (comp : α → α → Bool) (fuel first last : Nat) (m : Nat → α)
    (hfl : first ≤ last) (htot : TotalOn comp first last m)
    (hfuel : 2 * (last - first) + 2 ≤ fuel) :
    ∃ m', _sort comp fuel first last m = some m' ∧ PermOn first last m m' :=
  (sort_terminates_aux comp (last - first) fuel first last m hfl rfl htot).2 hfuel

end SortTermination

/-! ## The comparators -/

section ComparatorLemmas

variable {T : Type} [LinearOrder T]

theorem tuple_lt_iff (a b : T × Nat) :
    tuple_lt a b = true ↔ a.1 < b.1 ∨ (a.1 = b.1 ∧ a.2 < b.2) := by
  unfold tuple_lt
  rcases lt_trichotomy a.1 b.1 with h | h | h
  · simp [h]
  · simp [h]
  · simp [h, not_lt_of_gt h, ne_of_gt h]

theorem compare_max_iff (a b : T × Nat) :
    compare_max a b = true ↔ b.1 < a.1 ∨ (a.1 = b.1 ∧ a.2 < b.2) := by
  unfold compare_max tuple_gt
  by_cases h : a.1 = b.1
  · simp [h]
  · rw [if_neg h, tuple_lt_iff]
    constructor
    · rintro (h1 | ⟨h1, _⟩)
      · exact Or.inl h1
      · exact absurd h1.symm h
    · rintro (h1 | ⟨h1, _⟩)
      · exact Or.inl h1
      · exact absurd h1 h

theorem compare_min_iff (a b : T × Nat) :
    compare_min a b = true ↔ a.1 < b.1 ∨ (a.1 = b.1 ∧ a.2 < b.2) :=
  tuple_lt_iff a b

theorem selection_comp_iff (compute_max : Bool) (a b : T × Nat) :
    selection_comp compute_max a b = true ↔ ranks_before compute_max a b := by
  cases compute_max
  · simp only [selection_comp, ranks_before, Bool.false_eq_true, if_false]
    exact compare_min_iff a b
  · simp only [selection_comp, ranks_before, if_true]
    exact compare_max_iff a b

theorem ranks_before_irrefl (compute_max : Bool) (a : T × Nat) :
    ¬ ranks_before compute_max a a := by
  cases compute_max <;> simp [ranks_before]

theorem ranks_before_asymm (compute_max : Bool) (a b : T × Nat)
    (h : ranks_before compute_max a b) : ¬ ranks_before compute_max b a := by
  cases compute_max
  · simp only [ranks_before, Bool.false_eq_true, if_false] at h ⊢
    rintro (h2 | ⟨h2, h3⟩)
    · rcases h with h1 | ⟨h1, _⟩
      · exact lt_asymm h1 h2
      · rw [h1] at h2; exact lt_irrefl _ h2
    · rcases h with h1 | ⟨_, h4⟩
      · rw [h2] at h1; exact lt_irrefl _ h1
      · omega
  · simp only [ranks_before, if_true] at h ⊢
    rintro (h2 | ⟨h2, h3⟩)
    · rcases h with h1 | ⟨h1, _⟩
      · exact lt_asymm h1 h2
      · rw [h1] at h2; exact lt_irrefl _ h2
    · rcases h with h1 | ⟨_, h4⟩
      · rw [h2] at h1; exact lt_irrefl _ h1
      · omega

theorem ranks_before_total (compute_max : Bool) (a b : T × Nat) (h : a.2 ≠ b.2) :
    ranks_before compute_max a b ∨ ranks_before compute_max b a := by
  cases compute_max
  · simp only [ranks_before, Bool.false_eq_true, if_false]
    rcases lt_trichotomy a.1 b.1 with h1 | h1 | h1
    · exact Or.inl (Or.inl h1)
    · rcases Nat.lt_or_gt_of_ne h with h2 | h2
      · exact Or.inl (Or.inr ⟨h1, h2⟩)
      · exact Or.inr (Or.inr ⟨h1.symm, h2⟩)
    · exact Or.inr (Or.inl h1)
  · simp only [ranks_before, if_true]
    rcases lt_trichotomy a.1 b.1 with h1 | h1 | h1
    · exact Or.inr (Or.inl h1)
    · rcases Nat.lt_or_gt_of_ne h with h2 | h2
      · exact Or.inl (Or.inr ⟨h1, h2⟩)
      · exact Or.inr (Or.inr ⟨h1.symm, h2⟩)
    · exact Or.inl (Or.inl h1)

/-- Negative transitivity: if `b` is not before `a` and `c` is not before `b`, then `c` is
not before `a`. -/
theorem ranks_before_neg_trans (compute_max : Bool) (a b c : T × Nat)
    (h1 : ¬ ranks_before compute_max b a) (h2 : ¬ ranks_before compute_max c b) :
    ¬ ranks_before compute_max c a := by
  cases compute_max
  · simp only [ranks_before, Bool.false_eq_true, if_false, not_or, not_and, not_lt] at h1 h2 ⊢
    obtain ⟨h1a, h1b⟩ := h1
    obtain ⟨h2a, h2b⟩ := h2
    refine ⟨le_trans h1a h2a, fun e => ?_⟩
    have e1 : b.1 = a.1 := le_antisymm (by rw [← e]; exact h2a) h1a
    have e2 : c.1 = b.1 := by rw [e, e1]
    exact le_trans (h1b e1) (h2b e2)
  · simp only [ranks_before, if_true, not_or, not_and, not_lt, gt_iff_lt] at h1 h2 ⊢
    obtain ⟨h1a, h1b⟩ := h1
    obtain ⟨h2a, h2b⟩ := h2
    refine ⟨le_trans h2a h1a, fun e => ?_⟩
    have e1 : b.1 = a.1 := le_antisymm h1a (by rw [← e]; exact h2a)
    have e2 : c.1 = b.1 := by rw [e, e1]
    exact le_trans (h1b e1) (h2b e2)

end ComparatorLemmas

/-! ## A conforming `nth_element` -/

section ReferenceLemmas

variable {α : Type}

theorem write_back_outside (m : Nat → α) (first : Nat) (l : List α) (x : Nat)
    (h : x < first ∨ first + l.length ≤ x) : write_back m first l x = m x := by
  unfold write_back
  rw [if_neg (by omega)]

theorem write_back_inside (m : Nat → α) (first : Nat) (l : List α) (i : Nat)
    (h : i < l.length) : write_back m first l (first + i) = l[i] := by
  unfold write_back
  rw [if_pos (by omega), show first + i - first = i by omega]
  simp [List.getD_eq_getElem?_getD, List.getElem?_eq_getElem h]

theorem contents_write_back (m : Nat → α) (first : Nat) (l : List α) :
    contents (write_back m first l) first (first + l.length) = l := by
  apply List.ext_getElem
  · simp [contents]
  · intro i h1 h2
    simp only [contents, List.getElem_map, List.getElem_range'_1]
    exact write_back_inside m first l i h2

theorem contents_getElem (m : Nat → α) (first last i : Nat)
    (h : i < (contents m first last).length) : (contents m first last)[i] = m (first + i) := by
  simp [contents]

variable {T : Type} [LinearOrder T]

theorem nth_element_by_sorting_post :
    NthElementPost (nth_element_by_sorting : NthElement T) := by
  intro compute_max first nth last m h1 h2
  by_cases hn : nth = last
  · refine ⟨?_, fun _ => ?_, ?_⟩
    · simp only [nth_element_by_sorting, if_pos hn]
      exact PermOn.refl _ _ _
    · simp only [nth_element_by_sorting, if_pos hn]
    · intro i j _ _ hj1 hj2
      omega
  · simp only [nth_element_by_sorting, if_neg hn]
    set r : T × Nat → T × Nat → Prop :=
      fun a b => selection_comp compute_max b a = false with hr
    set l := (contents m first last).insertionSort r with hl
    have hlen : l.length = last - first := by
      rw [hl, List.length_insertionSort, length_contents]
    have hlast : first + l.length = last := by omega
    have hc : contents (write_back m first l) first last = l := by
      have := contents_write_back m first l
      rw [hlast] at this
      exact this
    haveI : IsTotal (T × Nat) r := ⟨fun a b => by
      simp only [hr]
      by_cases h : selection_comp compute_max b a = true
      · right
        have := ranks_before_asymm compute_max b a ((selection_comp_iff _ _ _).mp h)
        rw [← selection_comp_iff] at this
        simpa using this
      · left; simpa using h⟩
    haveI : IsTrans (T × Nat) r := ⟨fun a b c hab hbc => by
      simp only [hr] at hab hbc ⊢
      have h1 : ¬ ranks_before compute_max b a := by
        rw [← selection_comp_iff]; simp [hab]
      have h2 : ¬ ranks_before compute_max c b := by
        rw [← selection_comp_iff]; simp [hbc]
      have := ranks_before_neg_trans compute_max a b c h1 h2
      rw [← selection_comp_iff] at this
      simpa using this⟩
    have hsorted : l.Sorted r := List.sorted_insertionSort r _
    refine ⟨⟨?_, ?_⟩, fun h => absurd h hn, ?_⟩
    · intro x hx
      exact write_back_outside m first l x (by omega)
    · rw [hc, hl]
      exact List.perm_insertionSort r _
    · intro i j hi1 hi2 hj1 hj2
      have hi : i - first < l.length := by omega
      have hj : j - first < l.length := by omega
      have ei : write_back m first l i = l[i - first] := by
        have := write_back_inside m first l (i - first) hi
        rw [show first + (i - first) = i by omega] at this
        exact this
      have ej : write_back m first l j = l[j - first] := by
        have := write_back_inside m first l (j - first) hj
        rw [show first + (j - first) = j by omega] at this
        exact this
      rw [ei, ej]
      have := List.pairwise_iff_getElem.mp hsorted (i - first) (j - first) hi hj (by omega)
      exact this

end ReferenceLemmas

/-! ## The fill loop and the write loop -/

section Loops

variable {T : Type}

theorem gather_loop (arg : Nat → T) (s o : Nat) (w : Nat → T × Nat) :
    ∀ n, (List.range n).foldl
      (fun (st : (Nat → T × Nat) × Nat × Nat) e =>
        (Function.update st.1 e (arg st.2.1, st.2.2), st.2.1 + s, st.2.2 + 1))
      (w, o, 0) = (fun x => if x < n then (arg (o + x * s), x) else w x, o + n * s, n) := by
  intro n
  induction n with
  | zero => simp
  | succ n ih =>
    rw [List.range_succ, List.foldl_append, ih]
    simp only [List.foldl_cons, List.foldl_nil]
    refine Prod.ext ?_ (Prod.ext ?_ rfl)
    · funext x
      simp only [Function.update_apply]
      by_cases e : x = n
      · rw [if_pos e, e, if_pos (by omega)]
      · rw [if_neg e]
        by_cases h : x < n
        · rw [if_pos h, if_pos (by omega)]
        · rw [if_neg h, if_neg (by omega)]
    · simp only
      rw [Nat.add_mul, one_mul, Nat.add_assoc]

theorem gather_eq (arg : Nat → T) (s L o : Nat) (w : Nat → T × Nat) :
    gather arg s L o w = fun x => if x < L then (arg (o + x * s), x) else w x := by
  unfold gather
  rw [gather_loop]

theorem gather_apply (arg : Nat → T) (s L o : Nat) (w : Nat → T × Nat) (x : Nat) (h : x < L) :
    gather arg s L o w x = (arg (o + x * s), x) := by
  rw [gather_eq]
  simp only [if_pos h]

theorem write_loop (s o : Nat) (ws : Nat → T × Nat) (oi : Nat → Nat) (ov : Nat → T) :
    ∀ n, (∀ j j2, j < n → j2 < n → o + j * s = o + j2 * s → j = j2) →
      ∃ oi2 ov2, (List.range n).foldl
        (fun (st : (Nat → Nat) × (Nat → T) × Nat) j =>
          (Function.update st.1 st.2.2 (ws j).2,
           Function.update st.2.1 st.2.2 (ws j).1,
           st.2.2 + s))
        (oi, ov, o) = (oi2, ov2, o + n * s) ∧
        (∀ j, j < n → oi2 (o + j * s) = (ws j).2 ∧ ov2 (o + j * s) = (ws j).1) ∧
        (∀ p, (∀ j, j < n → p ≠ o + j * s) → oi2 p = oi p ∧ ov2 p = ov p) := by
  intro n
  induction n with
  | zero =>
    intro _
    exact ⟨oi, ov, by simp, fun j hj => absurd hj (Nat.not_lt_zero _), fun p _ => ⟨rfl, rfl⟩⟩
  | succ n ih =>
    intro hinj
    obtain ⟨oi1, ov1, e, hw, hu⟩ :=
      ih (fun j j2 hj hj2 => hinj j j2 (by omega) (by omega))
    rw [List.range_succ, List.foldl_append, e]
    simp only [List.foldl_cons, List.foldl_nil]
    refine ⟨_, _, Prod.ext rfl (Prod.ext rfl (by simp only; rw [Nat.add_mul, one_mul, Nat.add_assoc])), ?_, ?_⟩
    · intro j hj
      by_cases ej : j = n
      · subst ej
        simp only [Function.update_same, and_self]
      · have hne : o + j * s ≠ o + n * s := fun h =>
          ej (hinj j n hj (by omega) h)
        rw [Function.update_noteq hne, Function.update_noteq hne]
        exact hw j (by omega)
    · intro p hp
      have hne : p ≠ o + n * s := hp n (by omega)
      rw [Function.update_noteq hne, Function.update_noteq hne]
      exact hu p (fun j hj => hp j (by omega))

theorem mem_lane_positions {k s o p : Nat} :
    p ∈ lane_positions k s o ↔ ∃ j, j < k ∧ p = o + j * s := by
  simp only [lane_positions, List.mem_map, List.mem_range]
  constructor
  · rintro ⟨j, hj, rfl⟩; exact ⟨j, hj, rfl⟩
  · rintro ⟨j, hj, rfl⟩; exact ⟨j, hj, rfl⟩

theorem write_out_spec (k s o : Nat) (ws : Nat → T × Nat) (oi : Nat → Nat) (ov : Nat → T)
    (hnd : (lane_positions k s o).Nodup) :
    (∀ j, j < k → (write_out k s ws o oi ov).1 (o + j * s) = (ws j).2 ∧
      (write_out k s ws o oi ov).2 (o + j * s) = (ws j).1) ∧
    (∀ p, p ∉ lane_positions k s o →
      (write_out k s ws o oi ov).1 p = oi p ∧ (write_out k s ws o oi ov).2 p = ov p) := by
  have hinj : ∀ j j2, j < k → j2 < k → o + j * s = o + j2 * s → j = j2 := by
    intro j j2 hj hj2 h
    exact List.inj_on_of_nodup_map hnd (List.mem_range.mpr hj) (List.mem_range.mpr hj2) h
  obtain ⟨oi2, ov2, e, hw, hu⟩ := write_loop s o ws oi ov k hinj
  unfold write_out
  simp only [e]
  refine ⟨hw, fun p hp => hu p (fun j hj h => hp (mem_lane_positions.mpr ⟨j, hj, h⟩))⟩

end Loops

/-! ## The loop over lanes -/

section LaneLoop

variable {T : Type} [LinearOrder T]

/-- What the loop over the lanes leaves in the output buffers, provided the lanes write to
pairwise different offsets and the selection of every lane returns: every lane's offsets
hold the first `k` entries of a workspace its selection returned, and no other offset is
touched. -/
theorem lanes_loop_spec (nth_element : NthElement T) (fuel : Nat) (arg : Nat → T)
    (it ot : CoordinateTransform) (L is os k : Nat) (cm : Bool) (sort : SortType) :
    ∀ (coords : List (List Nat)) (st : (Nat → T × Nat) × (Nat → Nat) × (Nat → T)),
      (coords.flatMap (fun c => lane_positions k os (ot.index c))).Nodup →
      (∀ c ∈ coords, ∀ w, ∃ ws,
        select_and_sort nth_element fuel L k cm sort (gather arg is L (it.index c) w)
          = some ws) →
      ∃ st2, lanes_loop nth_element fuel arg it ot L is os k cm sort coords st = some st2 ∧
        (∀ c ∈ coords, ∃ w ws,
          select_and_sort nth_element fuel L k cm sort (gather arg is L (it.index c) w)
            = some ws ∧
          ∀ j, j < k → st2.2.1 (ot.index c + j * os) = (ws j).2 ∧
            st2.2.2 (ot.index c + j * os) = (ws j).1) ∧
        (∀ p, p ∉ coords.flatMap (fun c => lane_positions k os (ot.index c)) →
          st2.2.1 p = st.2.1 p ∧ st2.2.2 p = st.2.2 p) := by
  intro coords
  induction coords with
  | nil =>
    intro st _ _
    exact ⟨st, rfl, fun c hc => absurd hc (List.not_mem_nil _), fun p _ => ⟨rfl, rfl⟩⟩
  | cons c rest ih =>
    intro st hnd hsucc
    rw [List.flatMap_cons] at hnd
    obtain ⟨hndc, hndrest, hdisj⟩ := List.nodup_append.mp hnd
    obtain ⟨ws, hws⟩ := hsucc c (List.mem_cons_self _ _) st.1
    obtain ⟨hw, hu⟩ := write_out_spec k os (ot.index c) ws st.2.1 st.2.2 hndc
    obtain ⟨st2, e2, hlanes, hrest⟩ := ih
      (ws, (write_out k os ws (ot.index c) st.2.1 st.2.2).1,
        (write_out k os ws (ot.index c) st.2.1 st.2.2).2)
      hndrest (fun c2 hc2 w => hsucc c2 (List.mem_cons_of_mem _ hc2) w)
    refine ⟨st2, ?_, ?_, ?_⟩
    · simp only [lanes_loop, lane_body, hws]
      exact e2
    · intro c2 hc2
      rcases List.mem_cons.mp hc2 with rfl | hc2
      · refine ⟨st.1, ws, hws, fun j hj => ?_⟩
        have hmem : ot.index c2 + j * os ∈ lane_positions k os (ot.index c2) :=
          mem_lane_positions.mpr ⟨j, hj, rfl⟩
        have hnot : ot.index c2 + j * os ∉
            rest.flatMap (fun c => lane_positions k os (ot.index c)) :=
          fun h => hdisj hmem h
        have := hrest _ hnot
        simp only at this
        rw [this.1, this.2]
        exact hw j hj
      · exact hlanes c2 hc2
    · intro p hp
      rw [List.flatMap_cons, List.mem_append, not_or] at hp
      have := hrest p hp.2
      simp only at this
      rw [this.1, this.2]
      exact hu p hp.1

end LaneLoop

/-! ## Strides and coordinates -/

section Shapes

theorem row_major_strides_length (s : List Nat) : (row_major_strides s).length = s.length := by
  induction s with
  | nil => rfl
  | cons a t ih => simp [row_major_strides, ih]

theorem row_major_strides_append (pre s : List Nat) :
    row_major_strides (pre ++ s) =
      (row_major_strides pre).map (fun x => x * s.prod) ++ row_major_strides s := by
  induction pre with
  | nil => simp [row_major_strides]
  | cons a t ih =>
    rw [List.cons_append]
    rw [show row_major_strides (a :: (t ++ s)) = (t ++ s).prod :: row_major_strides (t ++ s)
      from rfl, ih, List.prod_append]
    rfl

theorem range_flatMap_mul (A B : Nat) :
    (List.range A).flatMap (fun a => (List.range B).map (fun b => a * B + b)) =
      List.range (A * B) := by
  induction A with
  | zero => simp
  | succ A ih =>
    rw [List.range_succ, List.flatMap_append, ih]
    simp only [List.flatMap_cons, List.flatMap_nil, List.append_nil]
    rw [List.range_eq_range' (A * B), List.range_eq_range' ((A + 1) * B)]
    have h := List.range'_append 0 (A * B) B 1
    simp only [Nat.zero_add, Nat.one_mul] at h
    rw [show (A + 1) * B = B + A * B by rw [Nat.add_mul, Nat.one_mul, Nat.add_comm], ← h]
    congr 1
    rw [List.range'_eq_map_range]

theorem coordinates_length (s : List Nat) : ∀ c ∈ coordinates s, c.length = s.length := by
  induction s with
  | nil => intro c hc; simp [coordinates] at hc; simp [hc]
  | cons a t ih =>
    intro c hc
    simp only [coordinates, List.mem_flatMap, List.mem_map] at hc
    obtain ⟨i, _, c2, hc2, rfl⟩ := hc
    simp [ih c2 hc2]

theorem coordinates_map_linear_index (s : List Nat) :
    (coordinates s).map (linear_index (row_major_strides s)) = List.range s.prod := by
  induction s with
  | nil => rfl
  | cons a t ih =>
    rw [show coordinates (a :: t) =
      (List.range a).flatMap (fun i => (coordinates t).map (fun c => i :: c)) from rfl,
      show row_major_strides (a :: t) = t.prod :: row_major_strides t from rfl,
      List.map_flatMap, List.prod_cons, ← range_flatMap_mul, ← ih]
    simp only [List.map_map]
    apply List.flatMap_congr
    intro i _
    apply List.map_congr_left
    intro c _
    simp [linear_index]

theorem coordinates_append (s1 s2 : List Nat) :
    coordinates (s1 ++ s2) =
      (coordinates s1).flatMap (fun a => (coordinates s2).map (fun b => a ++ b)) := by
  induction s1 with
  | nil => simp [coordinates]
  | cons a t ih =>
    rw [List.cons_append]
    rw [show coordinates (a :: (t ++ s2)) =
      (List.range a).flatMap (fun i => (coordinates (t ++ s2)).map (fun c => i :: c)) from rfl,
      show coordinates (a :: t) =
      (List.range a).flatMap (fun i => (coordinates t).map (fun c => i :: c)) from rfl, ih]
    simp only [List.flatMap_assoc, List.map_flatMap, List.flatMap_map, List.map_map]
    rfl

theorem linear_index_map_mul (l c : List Nat) (K : Nat) :
    linear_index (l.map (fun x => x * K)) c = linear_index l c * K := by
  induction l generalizing c with
  | nil => simp [linear_index]
  | cons a t ih =>
    cases c with
    | nil => simp [linear_index]
    | cons x xs =>
      have := ih xs
      simp only [linear_index, List.map_cons, List.zipWith_cons_cons, List.sum_cons] at this ⊢
      rw [this, Nat.add_mul, Nat.mul_assoc]

theorem linear_index_append (l1 l2 c1 c2 : List Nat) (h : l1.length = c1.length) :
    linear_index (l1 ++ l2) (c1 ++ c2) = linear_index l1 c1 + linear_index l2 c2 := by
  simp only [linear_index]
  rw [List.zipWith_append _ _ _ _ _ h, List.sum_append]

end Shapes

/-! ## Lanes and offsets -/

section Lanes

theorem range_eraseIdx (a b : Nat) :
    (List.range (a + 1 + b)).eraseIdx a = List.range a ++ List.range' (a + 1) b := by
  have h1 : List.range (a + 1 + b) = List.range' 0 a ++ (a :: List.range' (a + 1) b) := by
    rw [List.range_eq_range']
    have h := List.range'_append 0 a (1 + b) 1
    simp only [Nat.zero_add, Nat.one_mul] at h
    rw [show a + 1 + b = 1 + b + a by omega, ← h, Nat.add_comm 1 b, List.range'_succ]
  rw [h1, List.eraseIdx_append_of_length_le (by simp)]
  simp [List.range_eq_range']

theorem map_getD_range_left (pre post : List Nat) (x d : Nat) :
    (List.range pre.length).map (fun a => (pre ++ x :: post).getD a d) = pre := by
  apply List.ext_getElem
  · simp
  · intro i h1 h2
    simp [List.getD_eq_getElem?_getD, List.getElem?_append_left h2, List.getElem?_eq_getElem h2]

theorem map_getD_range_right (pre post : List Nat) (x d : Nat) :
    (List.range' (pre.length + 1) post.length).map (fun a => (pre ++ x :: post).getD a d)
      = post := by
  apply List.ext_getElem
  · simp
  · intro i h1 h2
    simp [List.getD_eq_getElem?_getD, List.getElem?_append_right, Nat.add_assoc,
      Nat.add_comm 1 i, List.getElem?_eq_getElem h2]

theorem getD_axis (pre post : List Nat) (x d : Nat) :
    (pre ++ x :: post).getD pre.length d = x := by
  induction pre with
  | nil => simp
  | cons a t ih => simpa using ih

/-- Reading a list in the axis order of `topk` moves the entry at the axis to the end. -/
theorem map_axis_order (pre post : List Nat) (x d : Nat) :
    (topk_axis_order (pre.length + 1 + post.length) pre.length).map
      (fun a => (pre ++ x :: post).getD a d) = pre ++ post ++ [x] := by
  unfold topk_axis_order
  rw [range_eraseIdx, List.map_append, List.map_append, map_getD_range_left,
    map_getD_range_right]
  simp only [List.map_cons, List.map_nil, getD_axis]

theorem coordinates_one : coordinates [1] = [[0]] := rfl

theorem flatMap_singleton_eq_map {β γ : Type} (g : β → γ) (l : List β) :
    l.flatMap (fun b => [g b]) = l.map g := by
  induction l with
  | nil => rfl
  | cons a t ih => simp [List.flatMap_cons, ih]

theorem axis_transform_coords (pre post : List Nat) (n : Nat) :
    (axis_transform pre post n).coords =
      (coordinates pre).flatMap (fun cp => (coordinates post).map (fun cq => cp ++ cq ++ [0])) := by
  unfold CoordinateTransform.coords axis_transform
  simp only
  rw [map_axis_order, coordinates_append, coordinates_one, coordinates_append]
  simp only [List.map_cons, List.map_nil, List.flatMap_assoc, List.flatMap_map,
    flatMap_singleton_eq_map, List.map_flatMap, List.map_map]
  rfl

theorem axis_stride (pre post : List Nat) (n : Nat) :
    (row_major_strides (pre ++ n :: post)).getD pre.length 0 = post.prod := by
  rw [row_major_strides_append]
  have hl : ((row_major_strides pre).map (fun x => x * (n :: post).prod)).length = pre.length := by
    rw [List.length_map, row_major_strides_length]
  rw [show row_major_strides (n :: post) = post.prod :: row_major_strides post from rfl]
  rw [← hl]
  exact getD_axis _ _ _ _

theorem axis_transform_index (pre post : List Nat) (n : Nat) (cp cq : List Nat)
    (hp : cp.length = pre.length) (hq : cq.length = post.length) :
    (axis_transform pre post n).index (cp ++ cq ++ [0]) =
      linear_index (row_major_strides pre) cp * (n * post.prod) +
        linear_index (row_major_strides post) cq := by
  unfold CoordinateTransform.index axis_transform
  simp only
  rw [← List.zipWith_map_left _ _ (fun a => (row_major_strides (pre ++ n :: post)).getD a 0)
    (fun s x => x * s)]
  rw [row_major_strides_append]
  rw [show row_major_strides (n :: post) = post.prod :: row_major_strides post from rfl]
  have hl : ((row_major_strides pre).map (fun x => x * (n :: post).prod)).length = pre.length := by
    rw [List.length_map, row_major_strides_length]
  have hl2 : (row_major_strides post).length = post.length := row_major_strides_length _
  have key := map_axis_order ((row_major_strides pre).map (fun x => x * (n :: post).prod))
    (row_major_strides post) post.prod 0
  rw [hl, hl2] at key
  rw [key]
  have e := linear_index_append
    ((row_major_strides pre).map (fun x => x * (n :: post).prod) ++ row_major_strides post)
    [post.prod] (cp ++ cq) [0] (by simp [row_major_strides_length, hp, hq])
  have e2 := linear_index_append ((row_major_strides pre).map (fun x => x * (n :: post).prod))
    (row_major_strides post) cp cq (by rw [hl, hp])
  unfold linear_index at e e2
  rw [e, e2]
  have e3 := linear_index_map_mul (row_major_strides pre) cp (n :: post).prod
  unfold linear_index at e3
  rw [e3]
  simp [linear_index]

end Lanes

section LaneOffsets

theorem flatMap_map_comm {β γ δ : Type} (l1 : List β) (l2 : List γ) (f : β → γ → δ) :
    (l1.flatMap (fun a => l2.map (f a))).Perm (l2.flatMap (fun b => l1.map (fun a => f a b))) := by
  induction l1 with
  | nil =>
    simp only [List.flatMap_nil, List.map_nil]
    have : l2.flatMap (fun _ => ([] : List δ)) = [] := by
      induction l2 with
      | nil => rfl
      | cons a t ih => simp [List.flatMap_cons, ih]
    rw [this]
  | cons a t ih =>
    rw [List.flatMap_cons]
    have h := List.flatMap_append_perm l2 (fun b => [f a b]) (fun b => t.map (fun a => f a b))
    rw [flatMap_singleton_eq_map] at h
    exact (List.Perm.append_left _ ih).trans h

/-- The offsets of all lanes and all positions along the axis enumerate the buffer of
shape `pre ++ n :: post` exactly once. -/
theorem axis_transform_positions_perm (pre post : List Nat) (n : Nat) :
    (all_positions (axis_transform pre post n).coords (axis_transform pre post n) n
      post.prod).Perm (List.range (pre ++ n :: post).prod) := by
  unfold all_positions
  rw [axis_transform_coords]
  simp only [List.flatMap_assoc, List.flatMap_map]
  have step1 : ((coordinates pre).flatMap fun cp => (coordinates post).flatMap fun cq =>
      lane_positions n post.prod ((axis_transform pre post n).index (cp ++ cq ++ [0]))) =
      ((coordinates pre).map (linear_index (row_major_strides pre))).flatMap fun a =>
        ((coordinates post).map (linear_index (row_major_strides post))).flatMap fun b =>
          lane_positions n post.prod (a * (n * post.prod) + b) := by
    rw [List.flatMap_map]
    apply List.flatMap_congr
    intro cp hcp
    rw [List.flatMap_map]
    apply List.flatMap_congr
    intro cq hcq
    rw [axis_transform_index pre post n cp cq (coordinates_length pre cp hcp)
      (coordinates_length post cq hcq)]
  rw [step1, coordinates_map_linear_index, coordinates_map_linear_index]
  have inner : ∀ a, ((List.range post.prod).flatMap fun b =>
      lane_positions n post.prod (a * (n * post.prod) + b)).Perm
      ((List.range (n * post.prod)).map (fun r => a * (n * post.prod) + r)) := by
    intro a
    unfold lane_positions
    refine (flatMap_map_comm (List.range post.prod) (List.range n)
      (fun b j => a * (n * post.prod) + b + j * post.prod)).trans ?_
    rw [← range_flatMap_mul, List.map_flatMap]
    simp only [List.map_map]
    apply List.Perm.of_eq
    apply List.flatMap_congr
    intro j _
    apply List.map_congr_left
    intro b _
    simp only [Function.comp]
    omega
  refine (List.Perm.flatMap_left _ (fun a _ => inner a)).trans ?_
  rw [range_flatMap_mul, List.prod_append, List.prod_cons]

theorem axis_transform_coords_length (pre post : List Nat) (n : Nat) :
    (axis_transform pre post n).coords.length = (pre ++ post).prod := by
  rw [axis_transform_coords]
  have h := congrArg List.length (coordinates_map_linear_index (pre ++ post))
  rw [List.length_map, List.length_range, coordinates_append] at h
  rw [← h]
  simp [List.length_flatMap, Function.comp_def]

theorem axis_transform_coords_eq (pre post : List Nat) (n n2 : Nat) :
    (axis_transform pre post n).coords = (axis_transform pre post n2).coords := by
  rw [axis_transform_coords, axis_transform_coords]

end LaneOffsets

/-! ## One lane -/

section OneLaneBasic

variable {T : Type}

theorem gather_totalOn_indices (arg : Nat → T) (s L o : Nat) (w : Nat → T × Nat) :
    TotalOn (sort_indices_ascending : T × Nat → T × Nat → Bool) 0 L (gather arg s L o w) := by
  intro x y _ hx _ hy hxy
  rw [gather_apply arg s L o w x hx, gather_apply arg s L o w y hy]
  simp only [sort_indices_ascending, decide_eq_true_eq]
  omega

/-- A rearrangement of the first `k` positions keeps the split at `k`. -/
theorem split_permOn {comp : T × Nat → T × Nat → Bool} {k L : Nat} {m m2 : Nat → T × Nat}
    (hp : PermOn 0 k m m2)
    (hs : ∀ i j, i < k → k ≤ j → j < L → comp (m j) (m i) = false) :
    ∀ i j, i < k → k ≤ j → j < L → comp (m2 j) (m2 i) = false := by
  intro i j hi hj1 hj2
  have hmem : m2 i ∈ contents m2 0 k := mem_contents.mpr ⟨i, Nat.zero_le _, hi, rfl⟩
  obtain ⟨i2, _, hi2, e⟩ := mem_contents.mp (hp.2.mem_iff.mp hmem)
  rw [hp.1 j (Or.inr hj1), ← e]
  exact hs i2 j hi2 hj1 hj2

end OneLaneBasic

section OneLane

variable {T : Type} [LinearOrder T]

theorem set_axis (pre post : List Nat) (x y : Nat) :
    (pre ++ x :: post).set pre.length y = pre ++ y :: post := by
  induction pre with
  | nil => rfl
  | cons a t ih => simp [ih]

theorem shape_split (shape : List Nat) (axis : Nat) (h : axis < shape.length) :
    shape = shape.take axis ++ shape.getD axis 0 :: shape.drop (axis + 1) ∧
      (shape.take axis).length = axis := by
  constructor
  · have h2 : shape.getD axis 0 = shape[axis] := by
      simp [List.getD_eq_getElem?_getD, List.getElem?_eq_getElem h]
    rw [h2, ← List.drop_eq_getElem_cons h, List.take_append_drop]
  · rw [List.length_take]; omega

theorem gather_totalOn_selection (arg : Nat → T) (s L o : Nat) (w : Nat → T × Nat)
    (compute_max : Bool) :
    TotalOn (selection_comp compute_max) 0 L (gather arg s L o w) := by
  intro x y _ hx _ hy hxy
  rw [gather_apply arg s L o w x hx, gather_apply arg s L o w y hy,
    selection_comp_iff, selection_comp_iff]
  exact ranks_before_total compute_max _ _ hxy

/-- The selection and ordering of a gathered lane returns, for every ordering policy, and
its result satisfies `LanePost`. -/
theorem select_and_sort_spec (nth_element : NthElement T) (hnth : NthElementPost nth_element)
    (fuel : Nat) (arg : Nat → T) (s L o k : Nat) (compute_max : Bool) (sort : SortType)
    (hk : k ≤ L) (hfuel : 2 * k + 2 ≤ fuel) (w : Nat → T × Nat) :
    ∃ ws, select_and_sort nth_element fuel L k compute_max sort (gather arg s L o w) = some ws ∧
      LanePost arg s L o k compute_max ws := by
  obtain ⟨hperm, _, hsplit⟩ :=
    hnth compute_max 0 k L (gather arg s L o w) (Nat.zero_le _) hk
  have hsel : (if compute_max = true then nth_element compare_max 0 k L (gather arg s L o w)
      else nth_element compare_min 0 k L (gather arg s L o w)) =
      nth_element (selection_comp compute_max) 0 k L (gather arg s L o w) := by
    cases compute_max <;> simp [selection_comp]
  have hsplit2 : ∀ i j, i < k → k ≤ j → j < L → selection_comp compute_max
      (nth_element (selection_comp compute_max) 0 k L (gather arg s L o w) j)
      (nth_element (selection_comp compute_max) 0 k L (gather arg s L o w) i) = false :=
    fun i j hi hj1 hj2 => hsplit i j (Nat.zero_le _) hi hj1 hj2
  have finish : ∀ (comp : T × Nat → T × Nat → Bool),
      TotalOn comp 0 L (gather arg s L o w) →
      ∃ ws, _sort comp fuel 0 k
          (nth_element (selection_comp compute_max) 0 k L (gather arg s L o w)) = some ws ∧
        LanePost arg s L o k compute_max ws := by
    intro comp htot
    obtain ⟨ws, e, p⟩ := sort_terminates comp fuel 0 k _ (Nat.zero_le _)
      ((htot.permOn hperm).sub (Nat.le_refl _) hk) (by omega)
    exact ⟨ws, e, ⟨w, hperm.trans (p.mono (Nat.le_refl _) (Nat.zero_le _) hk)⟩,
      split_permOn p hsplit2⟩
  unfold select_and_sort
  simp only [hsel]
  cases sort with
  | NONE => exact ⟨_, rfl, ⟨w, hperm⟩, hsplit2⟩
  | SORT_INDICES => exact finish _ (gather_totalOn_indices arg s L o w)
  | SORT_VALUES =>
    cases compute_max with
    | true => exact finish _ (gather_totalOn_selection arg s L o w true)
    | false => exact finish _ (gather_totalOn_selection arg s L o w false)

end OneLane

/-! ## The whole of `topk` -/

section Whole

variable {T : Type} [LinearOrder T]

theorem exists_shape_split (shape : List Nat) (axis : Nat) (h : axis < shape.length) :
    ∃ pre post, shape = pre ++ shape.getD axis 0 :: post ∧ axis = pre.length :=
  ⟨shape.take axis, shape.drop (axis + 1), (shape_split shape axis h).1,
    (shape_split shape axis h).2.symm⟩

theorem topk_input_transform_eq (pre post : List Nat) (L : Nat) :
    topk_input_transform (pre ++ L :: post) pre.length = axis_transform pre post L := by
  unfold topk_input_transform axis_transform
  rw [set_axis]
  congr 2
  simp only [List.length_append, List.length_cons]
  omega

theorem topk_output_transform_eq (pre post : List Nat) (L k : Nat) :
    topk_output_transform (pre ++ L :: post) (pre ++ k :: post) pre.length =
      axis_transform pre post k := by
  unfold topk_output_transform axis_transform
  rw [set_axis]
  congr 2
  simp only [List.length_append, List.length_cons]
  omega

theorem axis_stride_of_eq (pre post : List Nat) (n : Nat) :
    axis_stride_of (pre ++ n :: post) pre.length = post.prod :=
  axis_stride pre post n

/-- The result of `topk` on a valid request, lane by lane. -/
theorem topk_spec [Inhabited T] (nth_element : NthElement T)
    (hnth : NthElementPost nth_element) (fuel : Nat) (arg : Nat → T)
    (out_indices : Nat → Nat) (out_values : Nat → T) (in_shape : List Nat) (axis k : Nat)
    (compute_max : Bool) (sort : SortType)
    (haxis : axis < in_shape.length) (hk : k ≤ in_shape.getD axis 0)
    (hfuel : 2 * k + 2 ≤ fuel) :
    ∃ oi ov, topk nth_element fuel arg out_indices out_values in_shape (in_shape.set axis k)
        axis k compute_max sort = some (oi, ov) ∧
      (∀ c ∈ (topk_input_transform in_shape axis).coords, ∃ w ws,
        select_and_sort nth_element fuel (in_shape.getD axis 0) k compute_max sort
          (gather arg (axis_stride_of in_shape axis) (in_shape.getD axis 0)
            ((topk_input_transform in_shape axis).index c) w) = some ws ∧
        LanePost arg (axis_stride_of in_shape axis) (in_shape.getD axis 0)
          ((topk_input_transform in_shape axis).index c) k compute_max ws ∧
        ∀ j, j < k →
          oi ((topk_output_transform in_shape (in_shape.set axis k) axis).index c +
            j * axis_stride_of (in_shape.set axis k) axis) = (ws j).2 ∧
          ov ((topk_output_transform in_shape (in_shape.set axis k) axis).index c +
            j * axis_stride_of (in_shape.set axis k) axis) = (ws j).1) ∧
      (∀ p, (in_shape.set axis k).prod ≤ p → oi p = out_indices p ∧ ov p = out_values p) := by
  obtain ⟨pre, post, hs, rfl⟩ := exists_shape_split in_shape axis haxis
  generalize in_shape.getD pre.length 0 = L at hs hk
  subst hs
  have hL : (pre ++ L :: post).getD pre.length 0 = L := getD_axis pre post L 0
  rw [set_axis, topk_input_transform_eq, topk_output_transform_eq, axis_stride_of_eq,
    axis_stride_of_eq]
  have hperm := axis_transform_positions_perm pre post k
  rw [axis_transform_coords_eq pre post k L] at hperm
  unfold all_positions at hperm
  have hnd := hperm.nodup_iff.mpr (List.nodup_range _)
  obtain ⟨st2, e, hlanes, hrest⟩ := lanes_loop_spec nth_element fuel arg
    (axis_transform pre post L) (axis_transform pre post k) L post.prod post.prod k
    compute_max sort (axis_transform pre post L).coords
    ((fun _ => (default, 0)), out_indices, out_values) hnd
    (fun c _ w => by
      obtain ⟨ws, e, _⟩ := select_and_sort_spec nth_element hnth fuel arg post.prod L
        ((axis_transform pre post L).index c) k compute_max sort hk hfuel w
      exact ⟨ws, e⟩)
  refine ⟨st2.2.1, st2.2.2, ?_, ?_, ?_⟩
  · unfold topk
    simp only [topk_input_transform_eq, topk_output_transform_eq, axis_stride_of_eq, hL, e]
  · intro c hc
    obtain ⟨w, ws, e2, hj⟩ := hlanes c hc
    obtain ⟨ws2, e3, hpost⟩ := select_and_sort_spec nth_element hnth fuel arg post.prod L
      ((axis_transform pre post L).index c) k compute_max sort hk hfuel w
    rw [e2] at e3
    cases e3
    exact ⟨w, ws, e2, hpost, hj⟩
  · intro p hp
    apply hrest
    intro hmem
    have := hperm.mem_iff.mp hmem
    rw [List.mem_range] at this
    omega

end Whole

/-! ## What a lane's result says about the lane -/

section LaneContents

variable {T : Type}

theorem contents_gather (arg : Nat → T) (s L o : Nat) (w : Nat → T × Nat) :
    contents (gather arg s L o w) 0 L = (List.range L).map (lane_entry arg o s) := by
  unfold contents
  rw [Nat.sub_zero, ← List.range_eq_range']
  apply List.map_congr_left
  intro x hx
  exact gather_apply arg s L o w x (List.mem_range.mp hx)

end LaneContents

section LaneFacts

variable {T : Type} [LinearOrder T]

/-- Every entry of the result is an entry of the lane. -/
theorem LanePost.entry {arg : Nat → T} {s L o k : Nat} {cm : Bool} {ws : Nat → T × Nat}
    (h : LanePost arg s L o k cm ws) (j : Nat) (hj : j < L) :
    (ws j).2 < L ∧ ws j = lane_entry arg o s (ws j).2 := by
  obtain ⟨⟨w, hp⟩, _⟩ := h
  have hmem : ws j ∈ contents ws 0 L := mem_contents.mpr ⟨j, Nat.zero_le _, hj, rfl⟩
  have := hp.2.mem_iff.mp hmem
  rw [contents_gather, List.mem_map] at this
  obtain ⟨x, hx, e⟩ := this
  rw [← e]
  exact ⟨List.mem_range.mp hx, rfl⟩

/-- Every entry of the lane is an entry of the result. -/
theorem LanePost.covers {arg : Nat → T} {s L o k : Nat} {cm : Bool} {ws : Nat → T × Nat}
    (h : LanePost arg s L o k cm ws) (x : Nat) (hx : x < L) :
    ∃ j, j < L ∧ ws j = lane_entry arg o s x := by
  obtain ⟨⟨w, hp⟩, _⟩ := h
  have hmem : lane_entry arg o s x ∈ contents (gather arg s L o w) 0 L := by
    rw [contents_gather]
    exact List.mem_map.mpr ⟨x, List.mem_range.mpr hx, rfl⟩
  obtain ⟨j, _, hj, e⟩ := mem_contents.mp (hp.2.mem_iff.mpr hmem)
  exact ⟨j, hj, e⟩

/-- Different positions of the result hold different indices. -/
theorem LanePost.index_inj {arg : Nat → T} {s L o k : Nat} {cm : Bool} {ws : Nat → T × Nat}
    (h : LanePost arg s L o k cm ws) (j1 j2 : Nat) (h1 : j1 < L) (h2 : j2 < L)
    (e : (ws j1).2 = (ws j2).2) : j1 = j2 := by
  obtain ⟨⟨w, hp⟩, _⟩ := h
  have hperm := hp.2.map Prod.snd
  rw [contents_gather, List.map_map] at hperm
  have hid : (List.range L).map (Prod.snd ∘ lane_entry arg o s) = List.range L := by
    conv_rhs => rw [← List.map_id (List.range L)]
    apply List.map_congr_left
    intro x _
    rfl
  rw [hid] at hperm
  have hnd := hperm.nodup_iff.mpr (List.nodup_range L)
  unfold contents at hnd
  rw [List.map_map, Nat.sub_zero, ← List.range_eq_range'] at hnd
  exact List.inj_on_of_nodup_map hnd (List.mem_range.mpr h1) (List.mem_range.mpr h2) e

/-- The indices in the first `k` positions of a lane's result are the positions of the `k`
entries of the lane that rank first. -/
theorem LanePost.top_indices_eq {arg : Nat → T} {s L o k : Nat} {cm : Bool}
    {ws : Nat → T × Nat} (h : LanePost arg s L o k cm ws) (hk : k ≤ L) :
    ((List.range k).map (fun j => (ws j).2)).toFinset = top_indices cm arg o s L k ∧
      ((List.range k).map (fun j => (ws j).2)).Nodup := by
  have hnd : ((List.range k).map (fun j => (ws j).2)).Nodup := by
    apply List.Nodup.map_on _ (List.nodup_range k)
    intro a ha b hb e
    exact h.index_inj a b (by rw [List.mem_range] at ha; omega)
      (by rw [List.mem_range] at hb; omega) e
  refine ⟨?_, hnd⟩
  have hcard : ((List.range k).map (fun j => (ws j).2)).toFinset.card = k := by
    rw [List.toFinset_card_of_nodup hnd, List.length_map, List.length_range]
  have hmemS : ∀ i, i ∈ ((List.range k).map (fun j => (ws j).2)).toFinset ↔
      ∃ j, j < k ∧ (ws j).2 = i := by
    intro i
    simp only [List.mem_toFinset, List.mem_map, List.mem_range]
  ext i
  simp only [top_indices, Finset.mem_filter, Finset.mem_range]
  constructor
  · intro hi
    obtain ⟨j, hj, e⟩ := (hmemS i).mp hi
    obtain ⟨hlt, hent⟩ := h.entry j (by omega)
    rw [e] at hlt hent
    refine ⟨hlt, ?_⟩
    have hsub : (Finset.range L).filter (fun i2 =>
        ranks_before cm (lane_entry arg o s i2) (lane_entry arg o s i)) ⊆
        (((List.range k).map (fun j => (ws j).2)).toFinset).erase i := by
      intro i2 hi2
      simp only [Finset.mem_filter, Finset.mem_range] at hi2
      obtain ⟨hi2L, hrb⟩ := hi2
      rw [Finset.mem_erase]
      constructor
      · rintro rfl
        exact ranks_before_irrefl cm _ hrb
      · obtain ⟨j2, hj2, e2⟩ := h.covers i2 hi2L
        rw [hmemS]
        by_cases hj2k : j2 < k
        · exact ⟨j2, hj2k, by rw [e2]; rfl⟩
        · have := h.2 j j2 hj (by omega) hj2
          rw [e2, hent] at this
          rw [← selection_comp_iff, this] at hrb
          exact absurd hrb (by simp)
    have := Finset.card_le_card hsub
    rw [Finset.card_erase_of_mem hi, hcard] at this
    unfold lane_rank
    omega
  · rintro ⟨hiL, hrank⟩
    by_contra hnot
    obtain ⟨j, hj, e⟩ := h.covers i hiL
    have hjk : k ≤ j := by
      by_contra hlt
      exact hnot ((hmemS i).mpr ⟨j, by omega, by rw [e]; rfl⟩)
    have hsub : ((List.range k).map (fun j => (ws j).2)).toFinset ⊆
        (Finset.range L).filter (fun i2 =>
          ranks_before cm (lane_entry arg o s i2) (lane_entry arg o s i)) := by
      intro i2 hi2
      obtain ⟨j2, hj2, e2⟩ := (hmemS i2).mp hi2
      obtain ⟨hlt2, hent2⟩ := h.entry j2 (by omega)
      rw [e2] at hlt2 hent2
      simp only [Finset.mem_filter, Finset.mem_range]
      refine ⟨hlt2, ?_⟩
      have hne : i2 ≠ i := by
        rintro rfl
        exact hnot hi2
      have hf := h.2 j2 j hj2 hjk hj
      rw [e, hent2] at hf
      rcases ranks_before_total cm (lane_entry arg o s i2) (lane_entry arg o s i) hne with r | r
      · exact r
      · rw [← selection_comp_iff, hf] at r
        exact absurd r (by simp)
    have := Finset.card_le_card hsub
    rw [hcard] at this
    unfold lane_rank at hrank
    omega

/-- With `k = 1` the first entry of a lane's result ranks before every other entry of the
lane. -/
theorem LanePost.best {arg : Nat → T} {s L o : Nat} {cm : Bool} {ws : Nat → T × Nat}
    (h : LanePost arg s L o 1 cm ws) (x : Nat) (hx : x < L) (hne : x ≠ (ws 0).2) :
    ranks_before cm (ws 0) (lane_entry arg o s x) := by
  obtain ⟨j, hj, e⟩ := h.covers x hx
  have hj0 : j ≠ 0 := by
    rintro rfl
    apply hne
    rw [e]
    rfl
  have hf := h.2 0 j (by omega) (by omega) hj
  rw [e] at hf
  have hne2 : (ws 0).2 ≠ (lane_entry arg o s x).2 := fun h2 => hne h2.symm
  rcases ranks_before_total cm (ws 0) (lane_entry arg o s x) hne2 with r | r
  · exact r
  · rw [← selection_comp_iff, hf] at r
    exact absurd r (by simp)

end LaneFacts

/-! ## Small ranges and boundary requests -/

section Boundary

variable {T : Type} [LinearOrder T]

/-- On a range of two elements `_sort` exchanges them exactly when `comp` puts the first
before the second. -/
theorem sort_two {α : Type} (comp : α → α → Bool) (fuel : Nat) (m : Nat → α) :
    _sort comp (fuel + 1) 0 2 m = some (if comp (m 0) (m 1) then swap m 0 1 else m) := by
  rw [sort_small comp fuel 0 2 m (by omega)]
  simp [insertionsort, List.range', insertionsort_inner]

theorem sort_two_order {α : Type} (comp : α → α → Bool) (fuel : Nat) (m ws : Nat → α)
    (hf : 1 ≤ fuel) (h : _sort comp fuel 0 2 m = some ws)
    (hc : comp (ws 0) (ws 1) = true) : comp (ws 1) (ws 0) = true := by
  obtain ⟨f, rfl⟩ : ∃ f, fuel = f + 1 := ⟨fuel - 1, by omega⟩
  rw [sort_two] at h
  by_cases hm : comp (m 0) (m 1) = true
  · rw [if_pos hm] at h
    cases h
    simpa [swap] using hm
  · rw [if_neg hm] at h
    cases h
    exact absurd hc hm

/-- The loop over the lanes depends on `nth_element` only through the calls it makes. -/
theorem lanes_loop_congr (n1 n2 : NthElement T) (fuel : Nat) (arg : Nat → T)
    (it ot : CoordinateTransform) (L is os k : Nat) (cm : Bool) (sort : SortType)
    (h : ∀ m, n1 (selection_comp cm) 0 k L m = n2 (selection_comp cm) 0 k L m) :
    ∀ (coords : List (List Nat)) (st : (Nat → T × Nat) × (Nat → Nat) × (Nat → T)),
      lanes_loop n1 fuel arg it ot L is os k cm sort coords st =
        lanes_loop n2 fuel arg it ot L is os k cm sort coords st := by
  have hs : ∀ w, select_and_sort n1 fuel L k cm sort w = select_and_sort n2 fuel L k cm sort w := by
    intro w
    have := h w
    cases cm <;> simp only [selection_comp, Bool.false_eq_true, if_false, if_true] at this <;>
      simp [select_and_sort, this]
  intro coords
  induction coords with
  | nil => intro st; rfl
  | cons c rest ih =>
    intro st
    simp only [lanes_loop, lane_body, hs]
    cases select_and_sort n2 fuel L k cm sort (gather arg is L (it.index c) st.1) with
    | none => rfl
    | some ws => exact ih _

/-- When `k` is the axis length, `nth_element` is called with `nth == last` and `topk`
computes what it computes with an `nth_element` that does nothing. -/
theorem topk_full_axis [Inhabited T] (nth_element : NthElement T)
    (hnth : NthElementPost nth_element) (fuel : Nat) (arg : Nat → T)
    (out_indices : Nat → Nat) (out_values : Nat → T) (in_shape out_shape : List Nat)
    (axis : Nat) (compute_max : Bool) (sort : SortType) :
    topk nth_element fuel arg out_indices out_values in_shape out_shape axis
        (in_shape.getD axis 0) compute_max sort =
      topk (fun _ _ _ _ m => m) fuel arg out_indices out_values in_shape out_shape axis
        (in_shape.getD axis 0) compute_max sort := by
  unfold topk
  simp only
  rw [lanes_loop_congr nth_element (fun _ _ _ _ m => m) fuel arg _ _ _ _ _ _ compute_max sort
    (fun m => (hnth compute_max 0 _ _ m (Nat.zero_le _) (Nat.le_refl _)).2.1 rfl)]

end Boundary

section Requests

variable {T : Type} [LinearOrder T]

/-- For `k = 1` the single output of a lane ranks before every other entry of the lane. -/
theorem topk_k_one [Inhabited T] (nth_element : NthElement T)
    (hnth : NthElementPost nth_element) (fuel : Nat) (arg : Nat → T)
    (out_indices : Nat → Nat) (out_values : Nat → T) (in_shape : List Nat) (axis : Nat)
    (compute_max : Bool) (sort : SortType)
    (haxis : axis < in_shape.length) (hL : 1 ≤ in_shape.getD axis 0) (hfuel : 4 ≤ fuel) :
    ∃ oi ov, topk nth_element fuel arg out_indices out_values in_shape (in_shape.set axis 1)
        axis 1 compute_max sort = some (oi, ov) ∧
      ∀ c ∈ (topk_input_transform in_shape axis).coords,
        oi ((topk_output_transform in_shape (in_shape.set axis 1) axis).index c) <
          in_shape.getD axis 0 ∧
        ov ((topk_output_transform in_shape (in_shape.set axis 1) axis).index c) =
          arg ((topk_input_transform in_shape axis).index c +
            oi ((topk_output_transform in_shape (in_shape.set axis 1) axis).index c) *
              axis_stride_of in_shape axis) ∧
        ∀ i, i < in_shape.getD axis 0 →
          i ≠ oi ((topk_output_transform in_shape (in_shape.set axis 1) axis).index c) →
          ranks_before compute_max
            (ov ((topk_output_transform in_shape (in_shape.set axis 1) axis).index c),
              oi ((topk_output_transform in_shape (in_shape.set axis 1) axis).index c))
            (lane_entry arg ((topk_input_transform in_shape axis).index c)
              (axis_stride_of in_shape axis) i) := by
  obtain ⟨oi, ov, e, hl, _⟩ := topk_spec nth_element hnth fuel arg out_indices out_values
    in_shape axis 1 compute_max sort haxis hL (by omega)
  refine ⟨oi, ov, e, fun c hc => ?_⟩
  obtain ⟨w, ws, _, hpost, hout⟩ := hl c hc
  have h0 := hout 0 (by omega)
  rw [Nat.zero_mul, Nat.add_zero] at h0
  obtain ⟨hlt, hent⟩ := hpost.entry 0 (by omega)
  rw [h0.1, h0.2]
  refine ⟨hlt, ?_, ?_⟩
  · conv_lhs => rw [hent]
    rfl
  · intro i hi hne
    exact hpost.best i hi hne

/-- The run of `topk` on the scenario lane `[3, 1, 3, 2]` with `k = 2`: the two outputs are
the first two workspace entries `ws 0`, `ws 1` returned by the selection and ordering. -/
theorem scenario_pair (nth_element : NthElement Nat) (hnth : NthElementPost nth_element)
    (fuel : Nat) (hfuel : 6 ≤ fuel) (compute_max : Bool) (sort : SortType) :
    ∃ oi ov w ws,
      topk nth_element fuel scenario_lane (fun _ => 0) (fun _ => 0) [4] [2] 0 2
        compute_max sort = some (oi, ov) ∧
      select_and_sort nth_element fuel 4 2 compute_max sort (gather scenario_lane 1 4 0 w)
        = some ws ∧
      (oi 0 = (ws 0).2 ∧ ov 0 = (ws 0).1) ∧ (oi 1 = (ws 1).2 ∧ ov 1 = (ws 1).1) ∧
      ws 0 = (scenario_lane (ws 0).2, (ws 0).2) ∧ ws 1 = (scenario_lane (ws 1).2, (ws 1).2) ∧
      (ws 0).2 ≠ (ws 1).2 ∧
      (ws 0).2 ∈ top_indices compute_max scenario_lane 0 1 4 2 ∧
      (ws 1).2 ∈ top_indices compute_max scenario_lane 0 1 4 2 := by
  obtain ⟨oi, ov, e, hl, _⟩ := topk_spec nth_element hnth fuel scenario_lane (fun _ => 0)
    (fun _ => 0) [4] 0 2 compute_max sort (by decide) (by decide) (by omega)
  obtain ⟨w, ws, hss, hpost, hout⟩ := hl [0] (by decide)
  have hi : (topk_input_transform [4] 0).index [0] = 0 := by decide
  have ho : (topk_output_transform [4] ([4].set 0 2) 0).index [0] = 0 := by decide
  have hs : axis_stride_of [4] 0 = 1 := by decide
  have hs2 : axis_stride_of ([4].set 0 2) 0 = 1 := by decide
  have hL : [4].getD 0 0 = 4 := by decide
  rw [hi, hs, hL] at hss hpost
  rw [ho, hs2] at hout
  have h0 := hout 0 (by omega)
  have h1 := hout 1 (by omega)
  simp only [Nat.zero_mul, Nat.add_zero, Nat.one_mul, Nat.zero_add] at h0 h1
  obtain ⟨htop, hnd⟩ := hpost.top_indices_eq (by omega)
  have e0 := (hpost.entry 0 (by omega)).2
  have e1 := (hpost.entry 1 (by omega)).2
  have hne : (ws 0).2 ≠ (ws 1).2 := by
    intro h
    have := hpost.index_inj 0 1 (by omega) (by omega) h
    omega
  refine ⟨oi, ov, w, ws, e, hss, h0, h1, ?_, ?_, hne, ?_, ?_⟩
  · conv_lhs => rw [e0]
    simp [lane_entry]
  · conv_lhs => rw [e1]
    simp [lane_entry]
  · rw [← htop]
    simp [List.range_succ]
  · rw [← htop]
    simp [List.range_succ]

end Requests

/-! ## The claims -/

section Claims

variable {T : Type} [LinearOrder T]

/-- C1 (top-K correctness): on every valid request `topk` returns, and for every lane the
set of the `k` indices written to `out_indices` for that lane is the set of the positions
of the `k` entries of the lane that rank first under the selection relation of the
specification. `nth_element` is any function with the postcondition of
`std::nth_element`; every ordering policy and both selection modes are covered. -/
theorem C1_topk_selects_top_k [Inhabited T] (nth_element : NthElement T)
    (hnth : NthElementPost nth_element) (arg : Nat → T) (out_indices : Nat → Nat)
    (out_values : Nat → T) (in_shape : List Nat) (axis k : Nat) (compute_max : Bool)
    (sort : SortType) (haxis : axis < in_shape.length) (hk : k ≤ in_shape.getD axis 0)
    (fuel : Nat) (hfuel : 2 * k + 2 ≤ fuel) :
    ∃ oi ov, topk nth_element fuel arg out_indices out_values in_shape (in_shape.set axis k)
        axis k compute_max sort = some (oi, ov) ∧
      ∀ c ∈ (topk_input_transform in_shape axis).coords,
        ((lane_positions k (axis_stride_of (in_shape.set axis k) axis)
          ((topk_output_transform in_shape (in_shape.set axis k) axis).index c)).map
            oi).toFinset =
          top_indices compute_max arg ((topk_input_transform in_shape axis).index c)
            (axis_stride_of in_shape axis) (in_shape.getD axis 0) k := by
  obtain ⟨oi, ov, e, hl, _⟩ := topk_spec nth_element hnth fuel arg out_indices out_values
    in_shape axis k compute_max sort haxis hk hfuel
  refine ⟨oi, ov, e, fun c hc => ?_⟩
  obtain ⟨w, ws, _, hpost, hout⟩ := hl c hc
  rw [← (hpost.top_indices_eq hk).1]
  congr 1
  unfold lane_positions
  rw [List.map_map]
  apply List.map_congr_left
  intro j hj
  exact (hout j (List.mem_range.mp hj)).1

/-- Instance of C1: the scenario lane `[3, 1, 3, 2]` with `k = 2`, largest first. -/
theorem C1_topk_selects_top_k_witness :
    NthElementPost (nth_element_by_sorting : NthElement Nat) ∧ 0 < [4].length ∧
      2 ≤ [4].getD 0 0 ∧ 2 * 2 + 2 ≤ 6 ∧
    ∃ oi ov, topk nth_element_by_sorting 6 scenario_lane (fun _ => 0) (fun _ => 0) [4]
        ([4].set 0 2) 0 2 true SortType.SORT_VALUES = some (oi, ov) ∧
      ∀ c ∈ (topk_input_transform [4] 0).coords,
        ((lane_positions 2 (axis_stride_of ([4].set 0 2) 0)
          ((topk_output_transform [4] ([4].set 0 2) 0).index c)).map oi).toFinset =
          top_indices true scenario_lane ((topk_input_transform [4] 0).index c)
            (axis_stride_of [4] 0) ([4].getD 0 0) 2 :=
  ⟨nth_element_by_sorting_post, by decide, by decide, by decide,
    C1_topk_selects_top_k nth_element_by_sorting nth_element_by_sorting_post scenario_lane
      (fun _ => 0) (fun _ => 0) [4] 0 2 true SortType.SORT_VALUES (by decide) (by decide) 6
      (by decide)⟩

/-- C2 (index fidelity): on every valid request, at every output position `pos` of a lane
whose input offset is `o`, the value written is the input element the written index
points at, `out_values[pos] = arg[o + out_indices[pos] * in_axis_stride]`, and the written
index is below the axis length. -/
theorem C2_index_fidelity [Inhabited T] (nth_element : NthElement T)
    (hnth : NthElementPost nth_element) (arg : Nat → T) (out_indices : Nat → Nat)
    (out_values : Nat → T) (in_shape : List Nat) (axis k : Nat) (compute_max : Bool)
    (sort : SortType) (haxis : axis < in_shape.length) (hk : k ≤ in_shape.getD axis 0)
    (fuel : Nat) (hfuel : 2 * k + 2 ≤ fuel) :
    ∃ oi ov, topk nth_element fuel arg out_indices out_values in_shape (in_shape.set axis k)
        axis k compute_max sort = some (oi, ov) ∧
      ∀ c ∈ (topk_input_transform in_shape axis).coords,
        ∀ pos ∈ lane_positions k (axis_stride_of (in_shape.set axis k) axis)
            ((topk_output_transform in_shape (in_shape.set axis k) axis).index c),
          ov pos = arg ((topk_input_transform in_shape axis).index c +
            oi pos * axis_stride_of in_shape axis) ∧
          oi pos < in_shape.getD axis 0 := by
  obtain ⟨oi, ov, e, hl, _⟩ := topk_spec nth_element hnth fuel arg out_indices out_values
    in_shape axis k compute_max sort haxis hk hfuel
  refine ⟨oi, ov, e, fun c hc pos hpos => ?_⟩
  obtain ⟨w, ws, _, hpost, hout⟩ := hl c hc
  obtain ⟨j, hj, rfl⟩ := mem_lane_positions.mp hpos
  obtain ⟨hlt, hent⟩ := hpost.entry j (by omega)
  rw [(hout j hj).1, (hout j hj).2]
  refine ⟨?_, hlt⟩
  conv_lhs => rw [hent]
  rfl

/-- Instance of C2: the matrix `[[1, 5, 2], [9, 0, 4]]`, the two smallest of every row in
index order. -/
theorem C2_index_fidelity_witness :
    NthElementPost (nth_element_by_sorting : NthElement Nat) ∧ 1 < [2, 3].length ∧
      2 ≤ [2, 3].getD 1 0 ∧ 2 * 2 + 2 ≤ 6 ∧
    ∃ oi ov, topk nth_element_by_sorting 6 scenario_matrix (fun _ => 0) (fun _ => 0) [2, 3]
        ([2, 3].set 1 2) 1 2 false SortType.SORT_INDICES = some (oi, ov) ∧
      ∀ c ∈ (topk_input_transform [2, 3] 1).coords,
        ∀ pos ∈ lane_positions 2 (axis_stride_of ([2, 3].set 1 2) 1)
            ((topk_output_transform [2, 3] ([2, 3].set 1 2) 1).index c),
          ov pos = scenario_matrix ((topk_input_transform [2, 3] 1).index c +
            oi pos * axis_stride_of [2, 3] 1) ∧
          oi pos < [2, 3].getD 1 0 :=
  ⟨nth_element_by_sorting_post, by decide, by decide, by decide,
    C2_index_fidelity nth_element_by_sorting nth_element_by_sorting_post scenario_matrix
      (fun _ => 0) (fun _ => 0) [2, 3] 1 2 false SortType.SORT_INDICES (by decide) (by decide)
      6 (by decide)⟩

/-- C3 (ordering under SORT_VALUES), evaluated on the scenarios of the claim: on the lane
`[3, 1, 3, 2]` with `k = 2` and policy SORT_VALUES, whatever conforming `nth_element` is
used, `topk` writes the indices `[2, 0]` with values `[3, 3]` for `compute_max = true`
(the claim expects indices `[0, 2]`) and the values `[2, 1]` with indices `[3, 1]` for
`compute_max = false` (the claim expects values `[1, 2]`, indices `[1, 3]`): the outputs
are ordered worst first. -/
theorem C3_sort_values_scenarios (nth_element : NthElement Nat)
    (hnth : NthElementPost nth_element) (fuel : Nat) (hfuel : 6 ≤ fuel) :
    outputs 2 (topk nth_element fuel scenario_lane (fun _ => 0) (fun _ => 0) [4] [2] 0 2
        true SortType.SORT_VALUES) = some ([2, 0], [3, 3]) ∧
    outputs 2 (topk nth_element fuel scenario_lane (fun _ => 0) (fun _ => 0) [4] [2] 0 2
        false SortType.SORT_VALUES) = some ([3, 1], [2, 1]) := by
  constructor
  · obtain ⟨oi, ov, w, ws, e, hss, h0, h1, e0, e1, hne, t0, t1⟩ :=
      scenario_pair nth_element hnth fuel hfuel true SortType.SORT_VALUES
    have hord := sort_two_order compare_max fuel _ ws (by omega) hss
    rw [show top_indices true scenario_lane 0 1 4 2 = {0, 2} by decide] at t0 t1
    simp only [Finset.mem_insert, Finset.mem_singleton] at t0 t1
    rw [e, outputs]
    simp only [Option.map_some', List.range_succ, List.range_zero, List.nil_append,
      List.map_cons, List.map_nil, List.cons_append, h0.1, h0.2, h1.1, h1.2]
    rcases t0 with a | a <;> rcases t1 with b | b
    · exact absurd (a.trans b.symm) hne
    · rw [e0, e1, a, b] at hord
      exact absurd (hord (by decide)) (by decide)
    · rw [e0, e1, a, b]
      rfl
    · exact absurd (a.trans b.symm) hne
  · obtain ⟨oi, ov, w, ws, e, hss, h0, h1, e0, e1, hne, t0, t1⟩ :=
      scenario_pair nth_element hnth fuel hfuel false SortType.SORT_VALUES
    have hord := sort_two_order compare_min fuel _ ws (by omega) hss
    rw [show top_indices false scenario_lane 0 1 4 2 = {1, 3} by decide] at t0 t1
    simp only [Finset.mem_insert, Finset.mem_singleton] at t0 t1
    rw [e, outputs]
    simp only [Option.map_some', List.range_succ, List.range_zero, List.nil_append,
      List.map_cons, List.map_nil, List.cons_append, h0.1, h0.2, h1.1, h1.2]
    rcases t0 with a | a <;> rcases t1 with b | b
    · exact absurd (a.trans b.symm) hne
    · rw [e0, e1, a, b] at hord
      exact absurd (hord (by decide)) (by decide)
    · rw [e0, e1, a, b]
      rfl
    · exact absurd (a.trans b.symm) hne

/-- Instance of C3's evaluation with the sorting realisation of `nth_element`. -/
theorem C3_sort_values_scenarios_witness :
    NthElementPost (nth_element_by_sorting : NthElement Nat) ∧ 6 ≤ 6 ∧
    outputs 2 (topk nth_element_by_sorting 6 scenario_lane (fun _ => 0) (fun _ => 0) [4] [2]
        0 2 true SortType.SORT_VALUES) = some ([2, 0], [3, 3]) ∧
    outputs 2 (topk nth_element_by_sorting 6 scenario_lane (fun _ => 0) (fun _ => 0) [4] [2]
        0 2 false SortType.SORT_VALUES) = some ([3, 1], [2, 1]) :=
  ⟨nth_element_by_sorting_post, by decide,
    C3_sort_values_scenarios nth_element_by_sorting nth_element_by_sorting_post 6 (by decide)⟩

/-- C4 (ordering under SORT_INDICES), evaluated: on the lane `[3, 1, 3, 2]` with `k = 2`
and policy SORT_INDICES, whatever conforming `nth_element` is used, `topk` writes the
indices `[2, 0]`: they are descending, not ascending. -/
theorem C4_sort_indices_scenario (nth_element : NthElement Nat)
    (hnth : NthElementPost nth_element) (fuel : Nat) (hfuel : 6 ≤ fuel) :
    outputs 2 (topk nth_element fuel scenario_lane (fun _ => 0) (fun _ => 0) [4] [2] 0 2
        true SortType.SORT_INDICES) = some ([2, 0], [3, 3]) := by
  obtain ⟨oi, ov, w, ws, e, hss, h0, h1, e0, e1, hne, t0, t1⟩ :=
    scenario_pair nth_element hnth fuel hfuel true SortType.SORT_INDICES
  have hord := sort_two_order sort_indices_ascending fuel _ ws (by omega) hss
  rw [show top_indices true scenario_lane 0 1 4 2 = {0, 2} by decide] at t0 t1
  simp only [Finset.mem_insert, Finset.mem_singleton] at t0 t1
  rw [e, outputs]
  simp only [Option.map_some', List.range_succ, List.range_zero, List.nil_append,
    List.map_cons, List.map_nil, List.cons_append, h0.1, h0.2, h1.1, h1.2]
  rcases t0 with a | a <;> rcases t1 with b | b
  · exact absurd (a.trans b.symm) hne
  · rw [e0, e1, a, b] at hord
    exact absurd (hord (by decide)) (by decide)
  · rw [e0, e1, a, b]
    rfl
  · exact absurd (a.trans b.symm) hne

/-- Instance of C4's evaluation with the sorting realisation of `nth_element`. -/
theorem C4_sort_indices_scenario_witness :
    NthElementPost (nth_element_by_sorting : NthElement Nat) ∧ 6 ≤ 6 ∧
    outputs 2 (topk nth_element_by_sorting 6 scenario_lane (fun _ => 0) (fun _ => 0) [4] [2]
        0 2 true SortType.SORT_INDICES) = some ([2, 0], [3, 3]) :=
  ⟨nth_element_by_sorting_post, by decide,
    C4_sort_indices_scenario nth_element_by_sorting nth_element_by_sorting_post 6 (by decide)⟩

end Claims

section MoreClaims

variable {T : Type} [LinearOrder T]

/-- C5 (contract of `_sort`), evaluated: `_sort` does not order a range by `comp`. Below
the threshold, the range `[1, 2]` with `comp = (<)` is returned as `[2, 1]`; at the
threshold, the ten elements `[5, 3, 8, 1, 9, 2, 7, 0, 6, 4]` are returned as
`[3, 2, 1, 0, 9, 8, 7, 6, 5, 4]`. In both results the first adjacent pair `x, y` has
`comp x y` false. -/
theorem C5_sort_not_ordered :
    (_sort (fun a b : Nat => decide (a < b)) 1 0 2 (fun i => [1, 2].getD i 0)).map
        (fun m => contents m 0 2) = some [2, 1] ∧
    (_sort (fun a b : Nat => decide (a < b)) 4 0 10
        (fun i => [5, 3, 8, 1, 9, 2, 7, 0, 6, 4].getD i 0)).map
        (fun m => contents m 0 10) = some [3, 2, 1, 0, 9, 8, 7, 6, 5, 4] := by
  constructor
  · decide
  · decide

/-- C6 (`compare_max` is the specified ranking relation): `compare_max a b` holds exactly
when the value of `a` is larger, or the values are equal and the index of `a` is lower;
and with different values the tuple comparison `a > b` of the fall-through is decided by
the values alone. -/
theorem C6_compare_max_is_ranking (a b : T × Nat) :
    (compare_max a b = true ↔ a.1 > b.1 ∨ (a.1 = b.1 ∧ a.2 < b.2)) ∧
    (a.1 ≠ b.1 → (tuple_gt a b = true ↔ a.1 > b.1)) := by
  refine ⟨compare_max_iff a b, fun hne => ?_⟩
  unfold tuple_gt
  rw [tuple_lt_iff]
  constructor
  · rintro (h | ⟨h, _⟩)
    · exact h
    · exact absurd h.symm hne
  · intro h
    exact Or.inl h

/-- Instance of C6 on the tie `(3, 0)`, `(3, 2)` and on different values. -/
theorem C6_compare_max_is_ranking_witness :
    ((compare_max ((3 : Nat), 0) (3, 2) = true ↔
        (3 : Nat) > 3 ∨ ((3 : Nat) = 3 ∧ 0 < 2)) ∧
      ((3 : Nat) ≠ 3 → (tuple_gt ((3 : Nat), 0) (3, 2) = true ↔ (3 : Nat) > 3))) ∧
    ((compare_max ((2 : Nat), 5) (3, 1) = true ↔
        (2 : Nat) > 3 ∨ ((2 : Nat) = 3 ∧ 5 < 1)) ∧
      ((2 : Nat) ≠ 3 → (tuple_gt ((2 : Nat), 5) (3, 1) = true ↔ (2 : Nat) > 3))) :=
  ⟨C6_compare_max_is_ranking ((3 : Nat), 0) (3, 2), C6_compare_max_is_ranking ((2 : Nat), 5) (3, 1)⟩

/-- C7 (boundary `k = 1`): on every valid request with `k = 1`, for every ordering policy,
the single output of each lane is a value of the lane together with its position, the
value is the maximum of the lane for `compute_max = true` and the minimum for
`compute_max = false`, and the index is the lowest position at which that value occurs. -/
theorem C7_k_one_is_best [Inhabited T] (nth_element : NthElement T)
    (hnth : NthElementPost nth_element) (arg : Nat → T) (out_indices : Nat → Nat)
    (out_values : Nat → T) (in_shape : List Nat) (axis : Nat) (compute_max : Bool)
    (sort : SortType) (haxis : axis < in_shape.length) (hL : 1 ≤ in_shape.getD axis 0)
    (fuel : Nat) (hfuel : 4 ≤ fuel) :
    ∃ oi ov, topk nth_element fuel arg out_indices out_values in_shape (in_shape.set axis 1)
        axis 1 compute_max sort = some (oi, ov) ∧
      ∀ c ∈ (topk_input_transform in_shape axis).coords,
        oi ((topk_output_transform in_shape (in_shape.set axis 1) axis).index c) <
          in_shape.getD axis 0 ∧
        ov ((topk_output_transform in_shape (in_shape.set axis 1) axis).index c) =
          arg ((topk_input_transform in_shape axis).index c +
            oi ((topk_output_transform in_shape (in_shape.set axis 1) axis).index c) *
              axis_stride_of in_shape axis) ∧
        ∀ i, i < in_shape.getD axis 0 →
          (compute_max = true →
            arg ((topk_input_transform in_shape axis).index c + i * axis_stride_of in_shape axis)
              ≤ ov ((topk_output_transform in_shape (in_shape.set axis 1) axis).index c)) ∧
          (compute_max = false →
            ov ((topk_output_transform in_shape (in_shape.set axis 1) axis).index c) ≤
              arg ((topk_input_transform in_shape axis).index c +
                i * axis_stride_of in_shape axis)) ∧
          (arg ((topk_input_transform in_shape axis).index c + i * axis_stride_of in_shape axis)
              = ov ((topk_output_transform in_shape (in_shape.set axis 1) axis).index c) →
            oi ((topk_output_transform in_shape (in_shape.set axis 1) axis).index c) ≤ i) := by
  obtain ⟨oi, ov, e, h⟩ := topk_k_one nth_element hnth fuel arg out_indices out_values
    in_shape axis compute_max sort haxis hL hfuel
  refine ⟨oi, ov, e, fun c hc => ?_⟩
  obtain ⟨hlt, hval, hbest⟩ := h c hc
  refine ⟨hlt, hval, fun i hi => ?_⟩
  by_cases hne : i = oi ((topk_output_transform in_shape (in_shape.set axis 1) axis).index c)
  · rw [← hne] at hval
    refine ⟨fun _ => le_of_eq hval.symm, fun _ => le_of_eq hval, fun _ => le_of_eq hne.symm⟩
  · have hr := hbest i hi hne
    cases compute_max
    · simp only [ranks_before, lane_entry, Bool.false_eq_true, if_false] at hr
      refine ⟨fun h => absurd h (by simp), fun _ => ?_, fun heq => ?_⟩
      · rcases hr with h1 | ⟨h1, _⟩
        · exact le_of_lt h1
        · exact le_of_eq h1
      · rcases hr with h1 | ⟨_, h2⟩
        · rw [heq] at h1; exact absurd h1 (lt_irrefl _)
        · exact le_of_lt h2
    · simp only [ranks_before, lane_entry, if_true] at hr
      refine ⟨fun _ => ?_, fun h => absurd h (by simp), fun heq => ?_⟩
      · rcases hr with h1 | ⟨h1, _⟩
        · exact le_of_lt h1
        · exact le_of_eq h1.symm
      · rcases hr with h1 | ⟨_, h2⟩
        · rw [heq] at h1; exact absurd h1 (lt_irrefl _)
        · exact le_of_lt h2

/-- Instance of C7: the smallest element of the scenario lane `[3, 1, 3, 2]`. -/
theorem C7_k_one_is_best_witness :
    NthElementPost (nth_element_by_sorting : NthElement Nat) ∧ 0 < [4].length ∧
      1 ≤ [4].getD 0 0 ∧ 4 ≤ 4 ∧
    ∃ oi ov, topk nth_element_by_sorting 4 scenario_lane (fun _ => 0) (fun _ => 0) [4]
        ([4].set 0 1) 0 1 false SortType.NONE = some (oi, ov) ∧
      ∀ c ∈ (topk_input_transform [4] 0).coords,
        oi ((topk_output_transform [4] ([4].set 0 1) 0).index c) < [4].getD 0 0 ∧
        ov ((topk_output_transform [4] ([4].set 0 1) 0).index c) =
          scenario_lane ((topk_input_transform [4] 0).index c +
            oi ((topk_output_transform [4] ([4].set 0 1) 0).index c) * axis_stride_of [4] 0) ∧
        ∀ i, i < [4].getD 0 0 →
          (false = true →
            scenario_lane ((topk_input_transform [4] 0).index c + i * axis_stride_of [4] 0)
              ≤ ov ((topk_output_transform [4] ([4].set 0 1) 0).index c)) ∧
          (false = false →
            ov ((topk_output_transform [4] ([4].set 0 1) 0).index c) ≤
              scenario_lane ((topk_input_transform [4] 0).index c +
                i * axis_stride_of [4] 0)) ∧
          (scenario_lane ((topk_input_transform [4] 0).index c + i * axis_stride_of [4] 0)
              = ov ((topk_output_transform [4] ([4].set 0 1) 0).index c) →
            oi ((topk_output_transform [4] ([4].set 0 1) 0).index c) ≤ i) :=
  ⟨nth_element_by_sorting_post, by decide, by decide, by decide,
    C7_k_one_is_best nth_element_by_sorting nth_element_by_sorting_post scenario_lane
      (fun _ => 0) (fun _ => 0) [4] 0 false SortType.NONE (by decide) (by decide) 4
      (by decide)⟩

/-- C8 (boundary `k = L`), evaluated: on the lane `[3, 1, 3, 2]` with `k = 4`, the axis
length, and policy SORT_VALUES, whatever conforming `nth_element` is used, `topk` writes
for `compute_max = true` the values `[1, 2, 3, 3]` with indices `[1, 3, 2, 0]`, the worst
first; the full ranking of the claim is values `[3, 3, 2, 1]`, indices `[0, 2, 3, 1]`. -/
theorem C8_full_axis_scenario (nth_element : NthElement Nat)
    (hnth : NthElementPost nth_element) :
    outputs 4 (topk nth_element 6 scenario_lane (fun _ => 0) (fun _ => 0) [4] [4] 0 4
        true SortType.SORT_VALUES) = some ([1, 3, 2, 0], [1, 2, 3, 3]) := by
  have h := topk_full_axis nth_element hnth 6 scenario_lane (fun _ => 0) (fun _ => 0) [4] [4]
    0 true SortType.SORT_VALUES
  rw [show [4].getD 0 0 = 4 from rfl] at h
  rw [h]
  decide

/-- Instance of C8's evaluation with the sorting realisation of `nth_element`. -/
theorem C8_full_axis_scenario_witness :
    NthElementPost (nth_element_by_sorting : NthElement Nat) ∧
    outputs 4 (topk nth_element_by_sorting 6 scenario_lane (fun _ => 0) (fun _ => 0) [4] [4]
        0 4 true SortType.SORT_VALUES) = some ([1, 3, 2, 0], [1, 2, 3, 3]) :=
  ⟨nth_element_by_sorting_post, C8_full_axis_scenario nth_element_by_sorting
    nth_element_by_sorting_post⟩

end MoreClaims

section ShapeClaims

variable {T : Type} [LinearOrder T]

theorem matrix_lane_mem (r c i : Nat) (hi : i < r) :
    [i, 0] ∈ (topk_input_transform [r, c] 1).coords := by
  have h : (topk_input_transform [r, c] 1).coords = coordinates [r, 1] := rfl
  rw [h]
  simp only [coordinates, List.mem_flatMap, List.mem_range, List.mem_map]
  exact ⟨i, hi, [0], ⟨0, by omega, [], by simp, rfl⟩, rfl⟩

theorem matrix_in_index (r c i : Nat) :
    (topk_input_transform [r, c] 1).index [i, 0] = i * c := by
  have h : topk_axis_order 2 1 = [0, 1] := by decide
  simp [topk_input_transform, CoordinateTransform.index, h, row_major_strides]

theorem matrix_out_index (r c i : Nat) :
    (topk_output_transform [r, c] [r, 1] 1).index [i, 0] = i := by
  have h : topk_axis_order 2 1 = [0, 1] := by decide
  simp [topk_output_transform, CoordinateTransform.index, h, row_major_strides]

theorem matrix_axis_stride (r c : Nat) : axis_stride_of [r, c] 1 = 1 := by
  simp [axis_stride_of, row_major_strides]

/-- C9 (axis-wise selection on a matrix): for every row-major input of shape `[r, c]`
with `axis = 1`, `k = 1` and `compute_max = true`, output position `i` holds the maximum
of row `i` (the elements `i * c, ..., i * c + c - 1`) and the lowest column at which it
occurs. -/
theorem C9_matrix_row_maximum [Inhabited T] (nth_element : NthElement T)
    (hnth : NthElementPost nth_element) (arg : Nat → T) (out_indices : Nat → Nat)
    (out_values : Nat → T) (r c : Nat) (sort : SortType) (hc : 1 ≤ c)
    (fuel : Nat) (hfuel : 4 ≤ fuel) :
    ∃ oi ov, topk nth_element fuel arg out_indices out_values [r, c] [r, 1] 1 1 true sort
        = some (oi, ov) ∧
      ∀ i, i < r →
        oi i < c ∧ ov i = arg (i * c + oi i) ∧
        ∀ x, x < c → arg (i * c + x) ≤ ov i ∧ (arg (i * c + x) = ov i → oi i ≤ x) := by
  obtain ⟨oi, ov, e, h⟩ := topk_k_one nth_element hnth fuel arg out_indices out_values
    [r, c] 1 true sort (by simp) hc hfuel
  refine ⟨oi, ov, e, fun i hi => ?_⟩
  obtain ⟨hlt, hval, hbest⟩ := h [i, 0] (matrix_lane_mem r c i hi)
  have hset : [r, c].set 1 1 = [r, 1] := rfl
  have hL : [r, c].getD 1 0 = c := rfl
  simp only [hset, matrix_out_index, matrix_in_index, matrix_axis_stride, hL, Nat.mul_one]
    at hlt hval hbest
  refine ⟨hlt, hval, fun x hx => ?_⟩
  by_cases hne : x = oi i
  · rw [hne]
    exact ⟨le_of_eq hval.symm, fun _ => Nat.le_refl _⟩
  · have hr := hbest x hx hne
    simp only [ranks_before, lane_entry, if_true, Nat.mul_one] at hr
    constructor
    · rcases hr with h1 | ⟨h1, _⟩
      · exact le_of_lt h1
      · exact le_of_eq h1.symm
    · intro heq
      rcases hr with h1 | ⟨_, h2⟩
      · rw [heq] at h1; exact absurd h1 (lt_irrefl _)
      · exact le_of_lt h2

/-- Instance of C9: the scenario `[[1, 5, 2], [9, 0, 4]]` of the specification, with the
two outputs it produces: values `[5, 9]`, indices `[1, 0]`. -/
theorem C9_matrix_row_maximum_witness :
    (NthElementPost (nth_element_by_sorting : NthElement Nat) ∧ 1 ≤ 3 ∧ 4 ≤ 4 ∧
    ∃ oi ov, topk nth_element_by_sorting 4 scenario_matrix (fun _ => 0) (fun _ => 0) [2, 3]
        [2, 1] 1 1 true SortType.SORT_VALUES = some (oi, ov) ∧
      ∀ i, i < 2 →
        oi i < 3 ∧ ov i = scenario_matrix (i * 3 + oi i) ∧
        ∀ x, x < 3 → scenario_matrix (i * 3 + x) ≤ ov i ∧
          (scenario_matrix (i * 3 + x) = ov i → oi i ≤ x)) ∧
    outputs 2 (topk nth_element_by_sorting 4 scenario_matrix (fun _ => 0) (fun _ => 0) [2, 3]
        [2, 1] 1 1 true SortType.SORT_VALUES) = some ([1, 0], [5, 9]) :=
  ⟨⟨nth_element_by_sorting_post, by decide, by decide,
    C9_matrix_row_maximum nth_element_by_sorting nth_element_by_sorting_post scenario_matrix
      (fun _ => 0) (fun _ => 0) 2 3 SortType.SORT_VALUES (by decide) 4 (by decide)⟩,
    by decide⟩

/-- The lanes and their offsets: the transform of `topk` visits as many lanes as the
product of all dimensions but `axis`, and the offsets `index(lane) + j * strides[axis]`
enumerate the output buffer (`j < k`) and the input buffer (`j < L`) exactly once. -/
theorem lane_offsets_partition (in_shape : List Nat) (axis k : Nat)
    (haxis : axis < in_shape.length) :
    (topk_input_transform in_shape axis).coords.length = (in_shape.eraseIdx axis).prod ∧
    (all_positions (topk_input_transform in_shape axis).coords
        (topk_output_transform in_shape (in_shape.set axis k) axis) k
        (axis_stride_of (in_shape.set axis k) axis)).Perm
      (List.range (in_shape.set axis k).prod) ∧
    (all_positions (topk_input_transform in_shape axis).coords
        (topk_input_transform in_shape axis) (in_shape.getD axis 0)
        (axis_stride_of in_shape axis)).Perm (List.range in_shape.prod) := by
  obtain ⟨pre, post, hs, rfl⟩ := exists_shape_split in_shape axis haxis
  generalize in_shape.getD pre.length 0 = L at hs
  subst hs
  rw [set_axis, topk_input_transform_eq, topk_output_transform_eq, axis_stride_of_eq,
    axis_stride_of_eq]
  refine ⟨?_, ?_, axis_transform_positions_perm pre post L⟩
  · rw [axis_transform_coords_length, List.eraseIdx_append_of_length_le (Nat.le_refl _),
      Nat.sub_self, List.eraseIdx_cons_zero]
  · rw [axis_transform_coords_eq pre post L k]
    exact axis_transform_positions_perm pre post k

end ShapeClaims

/-! ## The comparators as strict total orders -/

section ComparatorOrders

variable {T : Type} [LinearOrder T]

theorem ranks_before_trans (compute_max : Bool) (a b c : T × Nat)
    (h1 : ranks_before compute_max a b) (h2 : ranks_before compute_max b c) :
    ranks_before compute_max a c := by
  cases compute_max
  · simp only [ranks_before, Bool.false_eq_true, if_false] at h1 h2 ⊢
    rcases h1 with h1 | ⟨e1, i1⟩ <;> rcases h2 with h2 | ⟨e2, i2⟩
    · exact Or.inl (lt_trans h1 h2)
    · exact Or.inl (e2 ▸ h1)
    · exact Or.inl (e1 ▸ h2)
    · exact Or.inr ⟨e1.trans e2, lt_trans i1 i2⟩
  · simp only [ranks_before, if_true] at h1 h2 ⊢
    rcases h1 with h1 | ⟨e1, i1⟩ <;> rcases h2 with h2 | ⟨e2, i2⟩
    · exact Or.inl (lt_trans h2 h1)
    · exact Or.inl (e2 ▸ h1)
    · exact Or.inl (e1 ▸ h2)
    · exact Or.inr ⟨e1.trans e2, lt_trans i1 i2⟩

theorem ranks_before_total_of_ne (compute_max : Bool) (a b : T × Nat) (h : a ≠ b) :
    ranks_before compute_max a b ∨ ranks_before compute_max b a := by
  by_cases h2 : a.2 = b.2
  · have h1 : a.1 ≠ b.1 := fun e => h (Prod.ext e h2)
    cases compute_max
    · simp only [ranks_before, Bool.false_eq_true, if_false]
      rcases lt_or_gt_of_ne h1 with l | l
      · exact Or.inl (Or.inl l)
      · exact Or.inr (Or.inl l)
    · simp only [ranks_before, if_true]
      rcases lt_or_gt_of_ne h1 with l | l
      · exact Or.inr (Or.inl l)
      · exact Or.inl (Or.inl l)
  · exact ranks_before_total compute_max a b h2

theorem selection_comp_irrefl (compute_max : Bool) (a : T × Nat) :
    selection_comp compute_max a a = false := by
  have := ranks_before_irrefl compute_max a
  rw [← selection_comp_iff] at this
  simpa using this

theorem selection_comp_trans (compute_max : Bool) (a b c : T × Nat)
    (h1 : selection_comp compute_max a b = true) (h2 : selection_comp compute_max b c = true) :
    selection_comp compute_max a c = true := by
  rw [selection_comp_iff] at h1 h2 ⊢
  exact ranks_before_trans compute_max a b c h1 h2

theorem selection_comp_exactly_one (compute_max : Bool) (a b : T × Nat) (h : a ≠ b) :
    (selection_comp compute_max a b = true ∧ selection_comp compute_max b a = false) ∨
    (selection_comp compute_max a b = false ∧ selection_comp compute_max b a = true) := by
  have hab : selection_comp compute_max a b = true → selection_comp compute_max b a = false := by
    intro h1
    have := ranks_before_asymm compute_max a b ((selection_comp_iff _ _ _).mp h1)
    rw [← selection_comp_iff] at this
    simpa using this
  rcases ranks_before_total_of_ne compute_max a b h with r | r
  · rw [← selection_comp_iff] at r
    exact Or.inl ⟨r, hab r⟩
  · rw [← selection_comp_iff] at r
    refine Or.inr ⟨?_, r⟩
    by_contra hc
    have := hab (by simpa using hc)
    rw [r] at this
    exact absurd this (by simp)

/-- C15 (the selection relations are strict total orders): `compare_max` and `compare_min`
are irreflexive, transitive, and of two different entries exactly one is ordered before
the other; `sort_indices_ascending` is irreflexive, transitive, and of two entries with
different indices exactly one is ordered before the other. -/
theorem C15_selection_relations_strict_total (a b c : T × Nat) :
    (compare_max a a = false ∧ compare_min a a = false ∧
      sort_indices_ascending a a = false) ∧
    ((compare_max a b = true → compare_max b c = true → compare_max a c = true) ∧
      (compare_min a b = true → compare_min b c = true → compare_min a c = true) ∧
      (sort_indices_ascending a b = true → sort_indices_ascending b c = true →
        sort_indices_ascending a c = true)) ∧
    (a ≠ b →
      ((compare_max a b = true ∧ compare_max b a = false) ∨
        (compare_max a b = false ∧ compare_max b a = true)) ∧
      ((compare_min a b = true ∧ compare_min b a = false) ∨
        (compare_min a b = false ∧ compare_min b a = true))) ∧
    (a.2 ≠ b.2 →
      (sort_indices_ascending a b = true ∧ sort_indices_ascending b a = false) ∨
        (sort_indices_ascending a b = false ∧ sort_indices_ascending b a = true)) := by
  have emax : (selection_comp true : T × Nat → T × Nat → Bool) = compare_max := rfl
  have emin : (selection_comp false : T × Nat → T × Nat → Bool) = compare_min := rfl
  refine ⟨⟨?_, ?_, ?_⟩, ⟨?_, ?_, ?_⟩, fun hne => ⟨?_, ?_⟩, fun hne => ?_⟩
  · rw [← emax]; exact selection_comp_irrefl true a
  · rw [← emin]; exact selection_comp_irrefl false a
  · simp [sort_indices_ascending]
  · rw [← emax]; exact selection_comp_trans true a b c
  · rw [← emin]; exact selection_comp_trans false a b c
  · simp only [sort_indices_ascending, decide_eq_true_eq]
    intro h1 h2
    exact lt_trans h1 h2
  · rw [← emax]; exact selection_comp_exactly_one true a b hne
  · rw [← emin]; exact selection_comp_exactly_one false a b hne
  · simp only [sort_indices_ascending, decide_eq_true_eq, decide_eq_false_iff_not]
    rcases Nat.lt_or_gt_of_ne hne with h | h
    · exact Or.inl ⟨h, by omega⟩
    · exact Or.inr ⟨by omega, h⟩

/-- Instance of C15 on the entries `(3, 0)`, `(3, 2)`, `(1, 1)`. -/
theorem C15_selection_relations_strict_total_witness :
    (((3 : Nat), 0) ≠ ((3 : Nat), 2) ∧ (((3 : Nat), 0) : Nat × Nat).2 ≠ (((3 : Nat), 2) : Nat × Nat).2) ∧
    ((compare_max ((3 : Nat), 0) (3, 0) = false ∧ compare_min ((3 : Nat), 0) (3, 0) = false ∧
      sort_indices_ascending ((3 : Nat), 0) (3, 0) = false) ∧
    ((compare_max ((3 : Nat), 0) (3, 2) = true → compare_max ((3 : Nat), 2) (1, 1) = true →
        compare_max ((3 : Nat), 0) (1, 1) = true) ∧
      (compare_min ((3 : Nat), 0) (3, 2) = true → compare_min ((3 : Nat), 2) (1, 1) = true →
        compare_min ((3 : Nat), 0) (1, 1) = true) ∧
      (sort_indices_ascending ((3 : Nat), 0) (3, 2) = true →
        sort_indices_ascending ((3 : Nat), 2) (1, 1) = true →
        sort_indices_ascending ((3 : Nat), 0) (1, 1) = true)) ∧
    (((3 : Nat), 0) ≠ ((3 : Nat), 2) →
      ((compare_max ((3 : Nat), 0) (3, 2) = true ∧ compare_max ((3 : Nat), 2) (3, 0) = false) ∨
        (compare_max ((3 : Nat), 0) (3, 2) = false ∧ compare_max ((3 : Nat), 2) (3, 0) = true)) ∧
      ((compare_min ((3 : Nat), 0) (3, 2) = true ∧ compare_min ((3 : Nat), 2) (3, 0) = false) ∨
        (compare_min ((3 : Nat), 0) (3, 2) = false ∧ compare_min ((3 : Nat), 2) (3, 0) = true))) ∧
    ((((3 : Nat), 0) : Nat × Nat).2 ≠ (((3 : Nat), 2) : Nat × Nat).2 →
      (sort_indices_ascending ((3 : Nat), 0) (3, 2) = true ∧
          sort_indices_ascending ((3 : Nat), 2) (3, 0) = false) ∨
        (sort_indices_ascending ((3 : Nat), 0) (3, 2) = false ∧
          sort_indices_ascending ((3 : Nat), 2) (3, 0) = true))) :=
  ⟨⟨by decide, by decide⟩, C15_selection_relations_strict_total ((3 : Nat), 0) (3, 2) (1, 1)⟩

end ComparatorOrders

/-! ## `Partition`: the position of the pivot -/

section PartitionCount

variable {α : Type}

theorem contents_succ (m : Nat → α) (first j : Nat) (h : first ≤ j) :
    contents m first (j + 1) = contents m first j ++ [m j] := by
  rw [contents_append m h (Nat.le_succ j)]
  congr 1
  simp [contents]

/-- The loop of `Partition` advances `less` once for every element ranked before the
pivot. -/
theorem Partition_loop_count (comp : α → α → Bool) (first last : Nat) (m : Nat → α) :
    ∀ (n j : Nat) (st : Nat × (Nat → α)), first ≤ j → j + n ≤ last - 1 →
      PartitionInv comp first last m j st →
      st.1 = first + (contents m first j).countP (fun x => comp x (m (last - 1))) →
      ((List.range' j n).foldl (Partition_step comp (last - 1)) st).1 =
        first + (contents m first (j + n)).countP (fun x => comp x (m (last - 1))) := by
  intro n
  induction n with
  | zero => intro j st _ _ _ h; simpa using h
  | succ n ih =>
    intro j st hj1 hj2 hinv hc
    rw [List.range'_succ, List.foldl_cons]
    have hnext := Partition_step_inv comp first last m j st hj1 (by omega) hinv
    have := ih (j + 1) _ (by omega) (by omega) hnext (by
      have hp : st.2 (last - 1) = m (last - 1) := hinv.rest _ (by omega)
      have hwj : st.2 j = m j := hinv.rest _ (Nat.le_refl _)
      rw [contents_succ m first j hj1, List.countP_append]
      unfold Partition_step
      rw [hp, hwj]
      by_cases hcmp : comp (m j) (m (last - 1)) = true
      · rw [if_pos hcmp]
        simp only [List.countP_cons, List.countP_nil, hcmp, if_true]
        omega
      · rw [if_neg hcmp]
        simp only [List.countP_cons, List.countP_nil, hcmp]
        simp only [Bool.false_eq_true, if_false]
        omega)
    rw [show j + 1 + n = j + (n + 1) by omega] at this
    exact this

theorem Partition_count (comp : α → α → Bool) (first last : Nat) (m : Nat → α)
    (h : first < last) :
    (Partition comp first last m).1 =
      first + (contents m first (last - 1)).countP (fun x => comp x (m (last - 1))) := by
  have hc := Partition_loop_count comp first last m (last - 1 - first) first (first, m)
    (Nat.le_refl _) (by omega) (PartitionInv_init comp first last m) (by simp [contents])
  rw [show first + (last - 1 - first) = last - 1 by omega] at hc
  unfold Partition
  exact hc

/-- C13 (postcondition of `Partition`): on every non-empty range and for every relation
`comp`, with `p` the element originally last, `Partition` returns a position `q` of the
range; afterwards the element at `q` is `p`, every element before `q` satisfies
`comp(x, p)`, no element after `q` does, `q - first` is the number of elements `x` among
the original first `n - 1` with `comp(x, p)`, and the range is a rearrangement of its
original contents. -/
theorem C13_partition_postcondition (comp : α → α → Bool) (first last : Nat) (m : Nat → α)
    (h : first < last) :
    first ≤ (Partition comp first last m).1 ∧ (Partition comp first last m).1 < last ∧
    (Partition comp first last m).2 (Partition comp first last m).1 = m (last - 1) ∧
    (∀ x, first ≤ x → x < (Partition comp first last m).1 →
      comp ((Partition comp first last m).2 x) (m (last - 1)) = true) ∧
    (∀ x, (Partition comp first last m).1 < x → x < last →
      comp ((Partition comp first last m).2 x) (m (last - 1)) = false) ∧
    (Partition comp first last m).1 - first =
      (contents m first (last - 1)).countP (fun x => comp x (m (last - 1))) ∧
    PermOn first last m (Partition comp first last m).2 := by
  have post := Partition_post comp first last m h
  have hc := Partition_count comp first last m h
  exact ⟨post.q_ge, post.q_lt, post.pivot, post.ahead, post.behind, by omega, post.perm⟩

/-- Instance of C13: the range `[5, 3, 8, 1, 4]` under `<`, where `q = 2` and the range
becomes `[3, 1, 4, 5, 8]`. -/
theorem C13_partition_postcondition_witness :
    0 < 5 ∧
    (0 ≤ (Partition nat_less 0 5 (buffer_of [5, 3, 8, 1, 4])).1 ∧
    (Partition nat_less 0 5 (buffer_of [5, 3, 8, 1, 4])).1 < 5 ∧
    (Partition nat_less 0 5 (buffer_of [5, 3, 8, 1, 4])).2
      (Partition nat_less 0 5 (buffer_of [5, 3, 8, 1, 4])).1 = buffer_of [5, 3, 8, 1, 4] (5 - 1) ∧
    (∀ x, 0 ≤ x → x < (Partition nat_less 0 5 (buffer_of [5, 3, 8, 1, 4])).1 →
      nat_less ((Partition nat_less 0 5 (buffer_of [5, 3, 8, 1, 4])).2 x)
        (buffer_of [5, 3, 8, 1, 4] (5 - 1)) = true) ∧
    (∀ x, (Partition nat_less 0 5 (buffer_of [5, 3, 8, 1, 4])).1 < x → x < 5 →
      nat_less ((Partition nat_less 0 5 (buffer_of [5, 3, 8, 1, 4])).2 x)
        (buffer_of [5, 3, 8, 1, 4] (5 - 1)) = false) ∧
    (Partition nat_less 0 5 (buffer_of [5, 3, 8, 1, 4])).1 - 0 =
      (contents (buffer_of [5, 3, 8, 1, 4]) 0 (5 - 1)).countP
        (fun x => nat_less x (buffer_of [5, 3, 8, 1, 4] (5 - 1))) ∧
    PermOn 0 5 (buffer_of [5, 3, 8, 1, 4])
      (Partition nat_less 0 5 (buffer_of [5, 3, 8, 1, 4])).2) ∧
    (Partition nat_less 0 5 (buffer_of [5, 3, 8, 1, 4])).1 = 2 ∧
    contents (Partition nat_less 0 5 (buffer_of [5, 3, 8, 1, 4])).2 0 5 = [3, 1, 4, 5, 8] :=
  ⟨by decide, C13_partition_postcondition nat_less 0 5 (buffer_of [5, 3, 8, 1, 4]) (by decide),
    by decide, by decide⟩

end PartitionCount

/-! ## What `insertionsort` computes -/

section InsertionSorted

variable {α : Type}

theorem swap_left (m : Nat → α) (i j : Nat) : swap m i j i = m j := by
  simp [swap]

theorem swap_right (m : Nat → α) (i j : Nat) : swap m i j j = m i := by
  unfold swap
  by_cases h : j = i
  · rw [if_pos h, h]
  · rw [if_neg h, if_pos rfl]

theorem swap_other (m : Nat → α) (i j x : Nat) (h1 : x ≠ i) (h2 : x ≠ j) :
    swap m i j x = m x := by
  unfold swap
  rw [if_neg h1, if_neg h2]

theorem StrictTotalOn.asymm {comp : α → α → Bool} {first last : Nat} {m : Nat → α}
    (h : StrictTotalOn comp first last m) (a b : α) (ha : a ∈ contents m first last)
    (hb : b ∈ contents m first last) (hab : comp a b = true) : comp b a = false := by
  by_contra hc
  have hba : comp b a = true := by simpa using hc
  have := h.trans a ha b hb a ha hab hba
  rw [h.irrefl a ha] at this
  exact absurd this (by simp)

/-- The inner loop of `insertionsort`: when the elements of `[first, it]` other than the
one at `c` are in the reverse order of `comp`, and all behind `c` are ordered before it,
the loop leaves `[first, it]` in the reverse order of `comp`. -/
theorem insertionsort_inner_sorted (comp : α → α → Bool) (first last it : Nat)
    (hit : it < last) :
    ∀ (c : Nat) (m : Nat → α), first ≤ c → c ≤ it → TotalOn comp first last m →
      (∀ i, first ≤ i → i + 1 < c → comp (m (i + 1)) (m i) = true) →
      (∀ i, c < i → i + 1 ≤ it → comp (m (i + 1)) (m i) = true) →
      (first < c → c < it → comp (m (c + 1)) (m (c - 1)) = true) →
      (c < it → comp (m (c + 1)) (m c) = true) →
      ∀ i, first ≤ i → i + 1 ≤ it →
        comp (insertionsort_inner comp first c m (i + 1))
          (insertionsort_inner comp first c m i) = true := by
  intro c
  induction c with
  | zero =>
    intro m _ _ _ _ h2 _ h4 i _ hi2
    simp only [insertionsort_inner]
    by_cases hi : i = 0
    · subst hi
      exact h4 (by omega)
    · exact h2 i (by omega) hi2
  | succ c ih =>
    intro m hc1 hc2 htot h1 h2 h3 h4 i hi1 hi2
    unfold insertionsort_inner
    by_cases hfc : first ≤ c
    · rw [if_pos hfc]
      by_cases hcmp : comp (m c) (m (c + 1)) = true
      · rw [if_pos hcmp]
        have hperm : PermOn first last m (swap m c (c + 1)) :=
          swap_permOn m hfc (by omega) (by omega) (by omega)
        refine ih (swap m c (c + 1)) hfc (by omega) (htot.permOn hperm) ?_ ?_ ?_ ?_ i hi1 hi2
        · intro k hk1 hk2
          rw [swap_other m c (c + 1) (k + 1) (by omega) (by omega),
            swap_other m c (c + 1) k (by omega) (by omega)]
          exact h1 k hk1 (by omega)
        · intro k hk1 hk2
          by_cases hk : k = c + 1
          · subst hk
            rw [swap_other m c (c + 1) (c + 1 + 1) (by omega) (by omega), swap_right]
            exact h3 (by omega) (by omega)
          · rw [swap_other m c (c + 1) (k + 1) (by omega) (by omega),
              swap_other m c (c + 1) k (by omega) (by omega)]
            exact h2 k (by omega) hk2
        · intro hk1 hk2
          rw [swap_right, swap_other m c (c + 1) (c - 1) (by omega) (by omega)]
          have := h1 (c - 1) (by omega) (by omega)
          rw [show c - 1 + 1 = c by omega] at this
          exact this
        · intro _
          rw [swap_right, swap_left]
          exact hcmp
      · rw [if_neg hcmp]
        by_cases hi : i < c
        · exact h1 i hi1 (by omega)
        · by_cases hic : i = c
          · subst hic
            rcases htot i (i + 1) hfc (by omega) (by omega) (by omega) (by omega) with t | t
            · exact absurd t hcmp
            · exact t
          · by_cases hic1 : i = c + 1
            · subst hic1
              exact h4 (by omega)
            · exact h2 i (by omega) hi2
    · rw [if_neg hfc]
      by_cases hic1 : i = c + 1
      · subst hic1
        exact h4 (by omega)
      · exact h2 i (by omega) hi2

theorem insertionsort_loop_sorted (comp : α → α → Bool) (first last : Nat) :
    ∀ (n it : Nat) (m : Nat → α), first < it → it + n ≤ last → TotalOn comp first last m →
      (∀ i, first ≤ i → i + 1 < it → comp (m (i + 1)) (m i) = true) →
      ∀ i, first ≤ i → i + 1 < it + n →
        comp ((List.range' it n).foldl (fun w it => insertionsort_inner comp first it w) m (i + 1))
          ((List.range' it n).foldl (fun w it => insertionsort_inner comp first it w) m i)
            = true := by
  intro n
  induction n with
  | zero =>
    intro it m _ _ _ h i hi1 hi2
    simp only [List.range'_zero, List.foldl_nil]
    exact h i hi1 (by omega)
  | succ n ih =>
    intro it m hit1 hit2 htot h i hi1 hi2
    rw [List.range'_succ, List.foldl_cons]
    have hperm := insertionsort_inner_permOn comp first last it m (by omega)
    have hs := insertionsort_inner_sorted comp first last it (by omega) it m (by omega)
      (Nat.le_refl _) htot h (fun k hk1 hk2 => absurd hk1 (by omega))
      (fun _ hk => absurd hk (Nat.lt_irrefl _)) (fun hk => absurd hk (Nat.lt_irrefl _))
    exact ih (it + 1) _ (by omega) (by omega) (htot.permOn hperm)
      (fun k hk1 hk2 => hs k hk1 (by omega)) i hi1 (by omega)

/-- On a range of pairwise comparable elements, `insertionsort` leaves every adjacent pair
with the later element ordered before the earlier one. -/
theorem insertionsort_sorted (comp : α → α → Bool) (first last : Nat) (m : Nat → α)
    (htot : TotalOn comp first last m) :
    ∀ i, first ≤ i → i + 1 < last →
      comp (insertionsort comp first last m (i + 1)) (insertionsort comp first last m i)
        = true := by
  intro i hi1 hi2
  unfold insertionsort
  rw [if_neg (by omega)]
  exact insertionsort_loop_sorted comp first last (last - (first + 1)) (first + 1) m
    (by omega) (by omega) htot (fun k hk1 hk2 => absurd hk1 (by omega)) i hi1 (by omega)

/-- C16 (what `insertionsort` computes): on every range whose pairwise distinct elements
`comp` orders strictly and totally, `insertionsort` yields a rearrangement of the range in
which every adjacent pair `x` (earlier), `y` (later) satisfies `comp(y, x)` and not
`comp(x, y)`: the range sorted in the reverse of `comp`. -/
theorem C16_insertionsort_reverse_sorted (comp : α → α → Bool) (first last : Nat)
    (m : Nat → α) (h : StrictTotalOn comp first last m) :
    PermOn first last m (insertionsort comp first last m) ∧
    ∀ i, first ≤ i → i + 1 < last →
      comp (insertionsort comp first last m (i + 1)) (insertionsort comp first last m i)
        = true ∧
      comp (insertionsort comp first last m i) (insertionsort comp first last m (i + 1))
        = false := by
  have hperm := insertionsort_permOn comp first last m
  refine ⟨hperm, fun i hi1 hi2 => ?_⟩
  have hs := insertionsort_sorted comp first last m h.total i hi1 hi2
  refine ⟨hs, ?_⟩
  have hm1 : insertionsort comp first last m (i + 1) ∈ contents m first last :=
    hperm.2.mem_iff.mp (mem_contents.mpr ⟨i + 1, by omega, hi2, rfl⟩)
  have hm0 : insertionsort comp first last m i ∈ contents m first last :=
    hperm.2.mem_iff.mp (mem_contents.mpr ⟨i, hi1, by omega, rfl⟩)
  exact h.asymm _ _ hm1 hm0 hs

/-- Under `<`, a range of pairwise different numbers is strictly and totally ordered. -/
theorem strictTotalOn_nat_less (first last : Nat) (m : Nat → Nat)
    (h : (contents m first last).Nodup) : StrictTotalOn nat_less first last m := by
  refine ⟨fun a _ => by simp [nat_less], fun a _ b _ c _ hab hbc => ?_, ?_⟩
  · simp only [nat_less, decide_eq_true_eq] at hab hbc ⊢
    omega
  · rw [totalOn_iff_pairwise]
    refine List.Pairwise.imp ?_ h
    intro a b hne
    simp only [nat_less, decide_eq_true_eq]
    omega

/-- Instance of C16: the range `[2, 0, 3, 1]` under `<` becomes `[3, 2, 1, 0]`. -/
theorem C16_insertionsort_reverse_sorted_witness :
    StrictTotalOn nat_less 0 4 (buffer_of [2, 0, 3, 1]) ∧
    (PermOn 0 4 (buffer_of [2, 0, 3, 1]) (insertionsort nat_less 0 4 (buffer_of [2, 0, 3, 1])) ∧
    ∀ i, 0 ≤ i → i + 1 < 4 →
      nat_less (insertionsort nat_less 0 4 (buffer_of [2, 0, 3, 1]) (i + 1))
        (insertionsort nat_less 0 4 (buffer_of [2, 0, 3, 1]) i) = true ∧
      nat_less (insertionsort nat_less 0 4 (buffer_of [2, 0, 3, 1]) i)
        (insertionsort nat_less 0 4 (buffer_of [2, 0, 3, 1]) (i + 1)) = false) ∧
    contents (insertionsort nat_less 0 4 (buffer_of [2, 0, 3, 1])) 0 4 = [3, 2, 1, 0] :=
  ⟨strictTotalOn_nat_less 0 4 _ (by decide),
    C16_insertionsort_reverse_sorted nat_less 0 4 (buffer_of [2, 0, 3, 1])
      (strictTotalOn_nat_less 0 4 _ (by decide)),
    by decide⟩

end InsertionSorted

/-! ## Termination of `_sort` with the pivot kept in the right-hand call -/

section KeptPivot

variable {α : Type}

/-- When `Partition` returns `q == first`, the element it leaves at `first` is ordered
before every other element of the range. -/
theorem Partition_first_best (comp : α → α → Bool) (first last : Nat) (m : Nat → α)
    (hfl : first < last) (htot : TotalOn comp first last m)
    (hq : (Partition comp first last m).1 = first) :
    ∀ x, first < x → x < last →
      comp ((Partition comp first last m).2 first) ((Partition comp first last m).2 x)
        = true := by
  intro x hx1 hx2
  have post := Partition_post comp first last m hfl
  have hb := post.behind x (by omega) hx2
  have hp := post.pivot
  rw [hq] at hp
  rw [← hp] at hb
  rcases (htot.permOn post.perm) first x (Nat.le_refl _) (by omega) (by omega) hx2 (by omega)
    with t | t
  · exact t
  · rw [hb] at t
    exact absurd t (by simp)

/-- When the first element is ordered before all others, `Partition` returns
`q > first`. -/
theorem Partition_after_best (comp : α → α → Bool) (first last : Nat) (m : Nat → α)
    (hfl : first + 1 < last)
    (hbest : ∀ x, first < x → x < last → comp (m first) (m x) = true) :
    first < (Partition comp first last m).1 :=
  (Partition_post comp first last m (by omega)).moved (by omega)
    (hbest (last - 1) (by omega) (by omega))

/-- With `q == first` the two recursive calls of `_sort` amount to one call on the whole
range again. -/
theorem sort_same_range (comp : α → α → Bool) (fuel first last : Nat) (m : Nat → α)
    (h10 : 10 ≤ last - first) (hq : (Partition comp first last m).1 = first) :
    _sort comp (fuel + 2) first last m =
      _sort comp (fuel + 1) first last (Partition comp first last m).2 := by
  rw [sort_large comp (fuel + 1) first last m h10, hq,
    sort_small comp fuel first first _ (by omega), insertionsort_empty]

/-- With a relation that never holds, `_sort` does not return on ten or more elements,
whatever the fuel. -/
theorem sort_never_true (fuel : Nat) :
    ∀ (first last : Nat) (m : Nat → α), 10 ≤ last - first →
      _sort (fun _ _ => false) fuel first last m = none := by
  induction fuel with
  | zero => intro first last m _; rfl
  | succ f ih =>
    intro first last m h10
    have post := Partition_post (fun (_ _ : α) => false) first last m (by omega)
    have hq : (Partition (fun (_ _ : α) => false) first last m).1 = first := by
      by_contra hne
      have hge := post.q_ge
      have := post.ahead first (Nat.le_refl _) (by omega)
      exact absurd this (by simp)
    rw [sort_large _ f first last m h10, hq]
    cases f with
    | zero => rfl
    | succ f2 =>
      rw [sort_small _ f2 first first _ (by omega), insertionsort_empty]
      exact ih first last _ h10

/-- C17 (termination of `_sort`): on every range whose pairwise distinct elements `comp`
orders strictly and totally, `_sort` returns (fuel `2 * n + 2` suffices for `n`
elements), although `_sort(q++, last, comp)` passes the old `q`: when `Partition` returns
`q == first` on ten or more elements the recursion continues on the same range, there the
first element is ordered before all others and the next `Partition` returns `q > first`.
With a relation that is never true, `_sort` does not return on ten or more elements. -/
theorem C17_sort_terminates_on_distinct (comp : α → α → Bool) (first last : Nat)
    (m : Nat → α) (h : StrictTotalOn comp first last m) (hfl : first ≤ last) :
    (∀ fuel, 2 * (last - first) + 2 ≤ fuel →
      ∃ m2, _sort comp fuel first last m = some m2 ∧ PermOn first last m m2) ∧
    (10 ≤ last - first → (Partition comp first last m).1 = first →
      (∀ fuel, _sort comp (fuel + 2) first last m =
        _sort comp (fuel + 1) first last (Partition comp first last m).2) ∧
      (∀ x, first < x → x < last →
        comp ((Partition comp first last m).2 first) ((Partition comp first last m).2 x)
          = true) ∧
      first < (Partition comp first last (Partition comp first last m).2).1) ∧
    (∀ (fuel f l : Nat) (w : Nat → α), 10 ≤ l - f →
      _sort (fun _ _ => false) fuel f l w = none) := by
  refine ⟨fun fuel hfuel => sort_terminates comp fuel first last m hfl h.total hfuel,
    fun h10 hq => ⟨fun fuel => sort_same_range comp fuel first last m h10 hq, ?_, ?_⟩,
    fun fuel f l w h10 => sort_never_true fuel f l w h10⟩
  · exact Partition_first_best comp first last m (by omega) h.total hq
  · exact Partition_after_best comp first last _ (by omega)
      (Partition_first_best comp first last m (by omega) h.total hq)

/-- Instance of C17: ten numbers whose last is the smallest, so that the first `Partition`
returns `q == first`; the second returns `q = 5`. -/
theorem C17_sort_terminates_on_distinct_witness :
    (StrictTotalOn nat_less 0 10 (buffer_of [5, 3, 8, 1, 9, 2, 7, 4, 6, 0]) ∧ 0 ≤ 10) ∧
    ((∀ fuel, 2 * (10 - 0) + 2 ≤ fuel →
      ∃ m2, _sort nat_less fuel 0 10 (buffer_of [5, 3, 8, 1, 9, 2, 7, 4, 6, 0]) = some m2 ∧
        PermOn 0 10 (buffer_of [5, 3, 8, 1, 9, 2, 7, 4, 6, 0]) m2) ∧
    (10 ≤ 10 - 0 → (Partition nat_less 0 10 (buffer_of [5, 3, 8, 1, 9, 2, 7, 4, 6, 0])).1 = 0 →
      (∀ fuel, _sort nat_less (fuel + 2) 0 10 (buffer_of [5, 3, 8, 1, 9, 2, 7, 4, 6, 0]) =
        _sort nat_less (fuel + 1) 0 10
          (Partition nat_less 0 10 (buffer_of [5, 3, 8, 1, 9, 2, 7, 4, 6, 0])).2) ∧
      (∀ x, 0 < x → x < 10 →
        nat_less ((Partition nat_less 0 10 (buffer_of [5, 3, 8, 1, 9, 2, 7, 4, 6, 0])).2 0)
          ((Partition nat_less 0 10 (buffer_of [5, 3, 8, 1, 9, 2, 7, 4, 6, 0])).2 x) = true) ∧
      0 < (Partition nat_less 0 10
        (Partition nat_less 0 10 (buffer_of [5, 3, 8, 1, 9, 2, 7, 4, 6, 0])).2).1) ∧
    (∀ (fuel f l : Nat) (w : Nat → Nat), 10 ≤ l - f →
      _sort (fun _ _ => false) fuel f l w = none)) ∧
    (Partition nat_less 0 10 (buffer_of [5, 3, 8, 1, 9, 2, 7, 4, 6, 0])).1 = 0 ∧
    (Partition nat_less 0 10
      (Partition nat_less 0 10 (buffer_of [5, 3, 8, 1, 9, 2, 7, 4, 6, 0])).2).1 = 5 ∧
    (_sort nat_less 4 0 10 (buffer_of [5, 3, 8, 1, 9, 2, 7, 4, 6, 0])).map
      (fun m => contents m 0 10) = some [4, 3, 2, 1, 0, 9, 8, 7, 6, 5] :=
  ⟨⟨strictTotalOn_nat_less 0 10 _ (by decide), by decide⟩,
    C17_sort_terminates_on_distinct nat_less 0 10 (buffer_of [5, 3, 8, 1, 9, 2, 7, 4, 6, 0])
      (strictTotalOn_nat_less 0 10 _ (by decide)) (by decide),
    by decide, by decide, by decide⟩

end KeptPivot

/-! ## Requests with `k = 0`, repeated sorting, and the slot of the pivot -/

section WriteNothing

variable {T : Type}

theorem write_out_zero (s : Nat) (ws : Nat → T × Nat) (o : Nat) (oi : Nat → Nat)
    (ov : Nat → T) : write_out 0 s ws o oi ov = (oi, ov) := by
  simp [write_out]

end WriteNothing

section LastClaims

variable {T : Type} [LinearOrder T]

theorem select_and_sort_k_zero (nth_element : NthElement T) (fuel L : Nat)
    (compute_max : Bool) (sort : SortType) (hfuel : 1 ≤ fuel) (w : Nat → T × Nat) :
    ∃ ws, select_and_sort nth_element fuel L 0 compute_max sort w = some ws := by
  obtain ⟨f, rfl⟩ : ∃ f, fuel = f + 1 := ⟨fuel - 1, by omega⟩
  unfold select_and_sort
  cases sort with
  | NONE => exact ⟨_, rfl⟩
  | SORT_INDICES =>
    simp only
    rw [sort_small _ f 0 0 _ (by omega)]
    exact ⟨_, rfl⟩
  | SORT_VALUES =>
    simp only
    cases compute_max
    · simp only [Bool.false_eq_true, if_false]
      rw [sort_small _ f 0 0 _ (by omega)]
      exact ⟨_, rfl⟩
    · simp only [if_true]
      rw [sort_small _ f 0 0 _ (by omega)]
      exact ⟨_, rfl⟩

/-- With `k = 0` the loop over the lanes returns and leaves both output buffers as they
were. -/
theorem lanes_loop_k_zero (nth_element : NthElement T) (fuel : Nat) (hfuel : 1 ≤ fuel)
    (arg : Nat → T) (it ot : CoordinateTransform) (L is os : Nat) (cm : Bool)
    (sort : SortType) :
    ∀ (coords : List (List Nat)) (st : (Nat → T × Nat) × (Nat → Nat) × (Nat → T)),
      ∃ ws, lanes_loop nth_element fuel arg it ot L is os 0 cm sort coords st =
        some (ws, st.2.1, st.2.2) := by
  intro coords
  induction coords with
  | nil => intro st; exact ⟨st.1, rfl⟩
  | cons c rest ih =>
    intro st
    obtain ⟨ws, e⟩ := select_and_sort_k_zero nth_element fuel L cm sort hfuel
      (gather arg is L (it.index c) st.1)
    obtain ⟨ws2, e2⟩ := ih (ws, st.2.1, st.2.2)
    refine ⟨ws2, ?_⟩
    simp only [lanes_loop, lane_body, e, write_out_zero]
    exact e2

/-- C11 as amended (`k == 0` is not reported): on every request with `k == 0` that is
valid otherwise (`axis` below the rank, the output shape equal to the input shape with `0`
at `axis`, a conforming `nth_element`), `topk` reports no error: it returns normally, and
both output buffers are returned as they were passed in, so no output element is produced
or modified. -/
theorem C11_k_zero_returns_unchanged [Inhabited T] (nth_element : NthElement T)
    (hnth : NthElementPost nth_element) (fuel : Nat) (hfuel : 1 ≤ fuel) (arg : Nat → T)
    (out_indices : Nat → Nat) (out_values : Nat → T) (in_shape : List Nat) (axis : Nat)
    (haxis : axis < in_shape.length) (compute_max : Bool) (sort : SortType) :
    topk nth_element fuel arg out_indices out_values in_shape (in_shape.set axis 0) axis 0
      compute_max sort = some (out_indices, out_values) := by
  have _hrequest := And.intro hnth haxis
  unfold topk
  simp only
  obtain ⟨ws, e⟩ := lanes_loop_k_zero nth_element fuel hfuel arg
    (topk_input_transform in_shape axis)
    (topk_output_transform in_shape (in_shape.set axis 0) axis)
    (in_shape.getD axis 0) (axis_stride_of in_shape axis)
    (axis_stride_of (in_shape.set axis 0) axis)
    compute_max sort (topk_input_transform in_shape axis).coords
    ((fun _ => (default, 0)), out_indices, out_values)
  rw [e]

/-- Instance of the amended C11: the scenario lane, shape `[4]`, with `k = 0`. -/
theorem C11_k_zero_returns_unchanged_witness :
    (NthElementPost (nth_element_by_sorting : NthElement Nat) ∧ 1 ≤ 1 ∧ 0 < [4].length) ∧
    topk nth_element_by_sorting 1 scenario_lane (fun _ => 7) (fun _ => 7) [4] ([4].set 0 0) 0
      0 true SortType.SORT_VALUES = some ((fun _ => 7), (fun _ => 7)) :=
  ⟨⟨nth_element_by_sorting_post, by decide, by decide⟩,
    C11_k_zero_returns_unchanged nth_element_by_sorting nth_element_by_sorting_post 1
      (by decide) scenario_lane (fun _ => 7) (fun _ => 7) [4] 0 (by decide) true
      SortType.SORT_VALUES⟩

/-- C11 as stated fails: on the lane `[3, 1, 3, 2]` with `k = 0` the run of `topk` is not a
failure; it returns, with the output buffers untouched. -/
theorem C11_invalid_k_counterexample :
    topk nth_element_by_sorting 1 scenario_lane (fun _ => 7) (fun _ => 7) [4] [0] 0 0
        true SortType.SORT_VALUES ≠ none ∧
    outputs 2 (topk nth_element_by_sorting 1 scenario_lane (fun _ => 7) (fun _ => 7) [4] [0]
        0 0 true SortType.SORT_VALUES) = some ([7, 7], [7, 7]) := by
  constructor
  · have h : (topk nth_element_by_sorting 1 scenario_lane (fun _ => 7) (fun _ => 7) [4] [0]
        0 0 true SortType.SORT_VALUES).isSome = true := by decide
    intro hn
    rw [hn] at h
    exact absurd h (by decide)
  · decide

/-- C12 (idempotence of the value sort), evaluated: the two entries `(3, 0)`, `(3, 2)` are
ordered by `compare_max`, and `_sort` with `compare_max` returns them exchanged; and on
the eleven numbers `[2, 5, 0, 3, 8, 10, 9, 6, 7, 4, 1]` under `<` a second `_sort`
changes the result of the first. -/
theorem C12_sort_changes_ordered_input :
    (compare_max (scenario_pair_sorted 0) (scenario_pair_sorted 1) = true ∧
      (_sort compare_max 1 0 2 scenario_pair_sorted).map (fun m => contents m 0 2) =
        some [(3, 2), (3, 0)]) ∧
    ((_sort nat_less 6 0 11 (buffer_of [2, 5, 0, 3, 8, 10, 9, 6, 7, 4, 1])).map
        (fun m => contents m 0 11) = some [0, 4, 3, 2, 1, 10, 9, 8, 7, 6, 5] ∧
      ((_sort nat_less 6 0 11 (buffer_of [2, 5, 0, 3, 8, 10, 9, 6, 7, 4, 1])).bind
        (fun m => _sort nat_less 6 0 11 m)).map (fun m => contents m 0 11) =
          some [4, 3, 2, 1, 0, 10, 9, 8, 7, 6, 5]) := by
  refine ⟨⟨by decide, by decide⟩, ?_, ?_⟩
  · set_option maxRecDepth 100000 in decide
  · set_option maxRecDepth 100000 in decide

/-- C14 (recursion around the pivot), evaluated on `[5, 3, 8, 1, 9, 2, 7, 0, 6, 4]` under
`<`: `Partition` returns `q = 4` with the pivot `4` in slot `4`; `_sort` returns
`[3, 2, 1, 0, 9, 8, 7, 6, 5, 4]`, so slot `4` holds `9`, not the pivot, whereas
`Partition` followed by `_sort` on `[first, q)` and on `[q + 1, last)` gives
`[3, 2, 1, 0, 4, 9, 8, 7, 6, 5]`. What `_sort` computes is `Partition` followed by `_sort`
on `[first, q)` and on `[q, last)`. -/
theorem C14_pivot_slot_sorted_again :
    ((Partition nat_less 0 10 (buffer_of [5, 3, 8, 1, 9, 2, 7, 0, 6, 4])).1 = 4 ∧
      (Partition nat_less 0 10 (buffer_of [5, 3, 8, 1, 9, 2, 7, 0, 6, 4])).2 4 = 4) ∧
    (_sort nat_less 3 0 10 (buffer_of [5, 3, 8, 1, 9, 2, 7, 0, 6, 4])).map
      (fun m => contents m 0 10) = some [3, 2, 1, 0, 9, 8, 7, 6, 5, 4] ∧
    (sort_around_pivot nat_less 2 0 10 (buffer_of [5, 3, 8, 1, 9, 2, 7, 0, 6, 4])).map
      (fun m => contents m 0 10) = some [3, 2, 1, 0, 4, 9, 8, 7, 6, 5] ∧
    (∀ fuel m1,
      _sort nat_less fuel 0 4
        (Partition nat_less 0 10 (buffer_of [5, 3, 8, 1, 9, 2, 7, 0, 6, 4])).2 = some m1 →
      _sort nat_less (fuel + 1) 0 10 (buffer_of [5, 3, 8, 1, 9, 2, 7, 0, 6, 4]) =
        _sort nat_less fuel 4 10 m1) := by
  have hq : (Partition nat_less 0 10 (buffer_of [5, 3, 8, 1, 9, 2, 7, 0, 6, 4])).1 = 4 := by
    decide
  refine ⟨⟨hq, by decide⟩, by decide, by decide, fun fuel m1 h1 => ?_⟩
  rw [sort_large nat_less fuel 0 10 _ (by omega), hq, h1]

end LastClaims

/-! ## The lanes partition the buffers -/

section PartitionClaim

variable {T : Type} [LinearOrder T]

theorem coordinates_nodup (s : List Nat) : (coordinates s).Nodup :=
  List.Nodup.of_map (linear_index (row_major_strides s))
    (by rw [coordinates_map_linear_index]; exact List.nodup_range _)

/-- Source `topk` is its loop over the lanes of `input_transform`. -/
theorem topk_eq_lanes_loop [Inhabited T] (nth_element : NthElement T) (fuel : Nat)
    (arg : Nat → T) (out_indices : Nat → Nat) (out_values : Nat → T)
    (in_shape out_shape : List Nat) (axis k : Nat) (compute_max : Bool) (sort : SortType) :
    topk nth_element fuel arg out_indices out_values in_shape out_shape axis k
        compute_max sort =
      (lanes_loop nth_element fuel arg (topk_input_transform in_shape axis)
        (topk_output_transform in_shape out_shape axis) (in_shape.getD axis 0)
        (axis_stride_of in_shape axis) (axis_stride_of out_shape axis) k compute_max sort
        (topk_input_transform in_shape axis).coords
        ((fun _ => (default, 0)), out_indices, out_values)).map
          (fun st => (st.2.1, st.2.2)) := by
  unfold topk
  simp only
  cases lanes_loop nth_element fuel arg (topk_input_transform in_shape axis)
    (topk_output_transform in_shape out_shape axis) (in_shape.getD axis 0)
    (axis_stride_of in_shape axis) (axis_stride_of out_shape axis) k compute_max sort
    (topk_input_transform in_shape axis).coords
    ((fun _ => (default, 0)), out_indices, out_values) <;> rfl

/-- The loop over the lanes runs its body once for the first lane and continues with the
remaining lanes. -/
theorem lanes_loop_cons (nth_element : NthElement T) (fuel : Nat) (arg : Nat → T)
    (it ot : CoordinateTransform) (L is os k : Nat) (cm : Bool) (sort : SortType)
    (c : List Nat) (rest : List (List Nat)) (st : (Nat → T × Nat) × (Nat → Nat) × (Nat → T)) :
    lanes_loop nth_element fuel arg it ot L is os k cm sort (c :: rest) st =
      (lane_body nth_element fuel arg it ot L is os k cm sort st c).bind
        (fun st1 => lanes_loop nth_element fuel arg it ot L is os k cm sort rest st1) := by
  simp only [lanes_loop]
  cases lane_body nth_element fuel arg it ot L is os k cm sort st c <;> rfl

/-- C10 (lanes partition the buffers): on every valid request, `topk` is its loop over the
lanes of `input_transform`, which are pairwise different and as many as the product of all
dimensions but `axis`, and the loop runs its body once per lane. The fill loop of a lane
reads `arg[in_index(lane) + i * in_strides[axis]]` into entry `i`, for `i < L`, and these
input offsets are the offsets `0, ..., product(shape) - 1`, each exactly once. The write
loop of a lane stores entry `j` at `out_index(lane) + j * out_strides[axis]`, for `j < k`,
and changes nothing else; these output offsets are the offsets
`0, ..., product(out_shape) - 1`, each exactly once. In the buffers `topk` returns, every
such offset holds the entry its lane wrote there, and every offset from
`product(out_shape)` on is as it was passed in. -/
theorem C10_lanes_partition_buffers [Inhabited T] (nth_element : NthElement T)
    (hnth : NthElementPost nth_element) (arg : Nat → T) (out_indices : Nat → Nat)
    (out_values : Nat → T) (in_shape : List Nat) (axis k : Nat) (compute_max : Bool)
    (sort : SortType) (haxis : axis < in_shape.length) (hk : k ≤ in_shape.getD axis 0)
    (fuel : Nat) (hfuel : 2 * k + 2 ≤ fuel) :
    -- the loop over the lanes
    ((topk_input_transform in_shape axis).coords.Nodup ∧
      (topk_input_transform in_shape axis).coords.length = (in_shape.eraseIdx axis).prod ∧
      topk nth_element fuel arg out_indices out_values in_shape (in_shape.set axis k) axis k
          compute_max sort =
        (lanes_loop nth_element fuel arg (topk_input_transform in_shape axis)
          (topk_output_transform in_shape (in_shape.set axis k) axis) (in_shape.getD axis 0)
          (axis_stride_of in_shape axis) (axis_stride_of (in_shape.set axis k) axis) k
          compute_max sort (topk_input_transform in_shape axis).coords
          ((fun _ => (default, 0)), out_indices, out_values)).map
            (fun st => (st.2.1, st.2.2)) ∧
      (∀ st, lanes_loop nth_element fuel arg (topk_input_transform in_shape axis)
          (topk_output_transform in_shape (in_shape.set axis k) axis) (in_shape.getD axis 0)
          (axis_stride_of in_shape axis) (axis_stride_of (in_shape.set axis k) axis) k
          compute_max sort [] st = some st) ∧
      (∀ c rest st, lanes_loop nth_element fuel arg (topk_input_transform in_shape axis)
          (topk_output_transform in_shape (in_shape.set axis k) axis) (in_shape.getD axis 0)
          (axis_stride_of in_shape axis) (axis_stride_of (in_shape.set axis k) axis) k
          compute_max sort (c :: rest) st =
        (lane_body nth_element fuel arg (topk_input_transform in_shape axis)
          (topk_output_transform in_shape (in_shape.set axis k) axis) (in_shape.getD axis 0)
          (axis_stride_of in_shape axis) (axis_stride_of (in_shape.set axis k) axis) k
          compute_max sort st c).bind
          (fun st1 => lanes_loop nth_element fuel arg (topk_input_transform in_shape axis)
            (topk_output_transform in_shape (in_shape.set axis k) axis)
            (in_shape.getD axis 0) (axis_stride_of in_shape axis)
            (axis_stride_of (in_shape.set axis k) axis) k compute_max sort rest st1))) ∧
    -- the input offsets, and what the fill loop reads
    ((all_positions (topk_input_transform in_shape axis).coords
          (topk_input_transform in_shape axis) (in_shape.getD axis 0)
          (axis_stride_of in_shape axis)).Perm (List.range in_shape.prod) ∧
      ∀ c ∈ (topk_input_transform in_shape axis).coords, ∀ (w : Nat → T × Nat) (i : Nat),
        i < in_shape.getD axis 0 →
        gather arg (axis_stride_of in_shape axis) (in_shape.getD axis 0)
            ((topk_input_transform in_shape axis).index c) w i =
          (arg ((topk_input_transform in_shape axis).index c +
            i * axis_stride_of in_shape axis), i)) ∧
    -- the output offsets, and what the write loop writes
    ((all_positions (topk_input_transform in_shape axis).coords
          (topk_output_transform in_shape (in_shape.set axis k) axis) k
          (axis_stride_of (in_shape.set axis k) axis)).Perm
        (List.range (in_shape.set axis k).prod) ∧
      ∀ c ∈ (topk_input_transform in_shape axis).coords,
        ∀ (ws : Nat → T × Nat) (oi : Nat → Nat) (ov : Nat → T),
        (∀ j, j < k →
          (write_out k (axis_stride_of (in_shape.set axis k) axis) ws
              ((topk_output_transform in_shape (in_shape.set axis k) axis).index c) oi ov).1
            ((topk_output_transform in_shape (in_shape.set axis k) axis).index c +
              j * axis_stride_of (in_shape.set axis k) axis) = (ws j).2 ∧
          (write_out k (axis_stride_of (in_shape.set axis k) axis) ws
              ((topk_output_transform in_shape (in_shape.set axis k) axis).index c) oi ov).2
            ((topk_output_transform in_shape (in_shape.set axis k) axis).index c +
              j * axis_stride_of (in_shape.set axis k) axis) = (ws j).1) ∧
        (∀ p, p ∉ lane_positions k (axis_stride_of (in_shape.set axis k) axis)
              ((topk_output_transform in_shape (in_shape.set axis k) axis).index c) →
          (write_out k (axis_stride_of (in_shape.set axis k) axis) ws
              ((topk_output_transform in_shape (in_shape.set axis k) axis).index c) oi ov).1 p
            = oi p ∧
          (write_out k (axis_stride_of (in_shape.set axis k) axis) ws
              ((topk_output_transform in_shape (in_shape.set axis k) axis).index c) oi ov).2 p
            = ov p)) ∧
    -- the buffers `topk` returns
    (∃ oi ov, topk nth_element fuel arg out_indices out_values in_shape (in_shape.set axis k)
        axis k compute_max sort = some (oi, ov) ∧
      (∀ c ∈ (topk_input_transform in_shape axis).coords, ∃ w ws,
        select_and_sort nth_element fuel (in_shape.getD axis 0) k compute_max sort
          (gather arg (axis_stride_of in_shape axis) (in_shape.getD axis 0)
            ((topk_input_transform in_shape axis).index c) w) = some ws ∧
        ∀ j, j < k →
          oi ((topk_output_transform in_shape (in_shape.set axis k) axis).index c +
            j * axis_stride_of (in_shape.set axis k) axis) = (ws j).2 ∧
          ov ((topk_output_transform in_shape (in_shape.set axis k) axis).index c +
            j * axis_stride_of (in_shape.set axis k) axis) = (ws j).1) ∧
      (∀ p, (in_shape.set axis k).prod ≤ p → oi p = out_indices p ∧ ov p = out_values p)) := by
  obtain ⟨hlen, hout, hin⟩ := lane_offsets_partition in_shape axis k haxis
  refine ⟨⟨coordinates_nodup _, hlen, topk_eq_lanes_loop _ _ _ _ _ _ _ _ _ _ _,
    fun st => rfl, fun c rest st => lanes_loop_cons _ _ _ _ _ _ _ _ _ _ _ c rest st⟩,
    ⟨hin, fun c _ w i hi => gather_apply arg _ _ _ w i hi⟩, ⟨hout, ?_⟩, ?_⟩
  · intro c hc ws oi ov
    have hnd := hout.nodup_iff.mpr (List.nodup_range _)
    unfold all_positions at hnd
    exact write_out_spec k _ _ ws oi ov ((List.nodup_flatMap.mp hnd).1 c hc)
  · obtain ⟨oi, ov, e, hl, hrest⟩ := topk_spec nth_element hnth fuel arg out_indices
      out_values in_shape axis k compute_max sort haxis hk hfuel
    refine ⟨oi, ov, e, fun c hc => ?_, hrest⟩
    obtain ⟨w, ws, e2, _, hj⟩ := hl c hc
    exact ⟨w, ws, e2, hj⟩

/-- Instance of C10: the matrix `[[1, 5, 2], [9, 0, 4]]`, axis `1`, `k = 2`; the two lanes
read the offsets `0, ..., 5` and write the offsets `0, ..., 3`. -/
theorem C10_lanes_partition_buffers_witness :
    (NthElementPost (nth_element_by_sorting : NthElement Nat) ∧ 1 < [2, 3].length ∧
      2 ≤ [2, 3].getD 1 0 ∧ 2 * 2 + 2 ≤ 6) ∧
    (
    ((topk_input_transform [2, 3] 1).coords.Nodup ∧
      (topk_input_transform [2, 3] 1).coords.length = ([2, 3].eraseIdx 1).prod ∧
      topk nth_element_by_sorting 6 scenario_matrix (fun _ => 0) (fun _ => 0) [2, 3] ([2, 3].set 1 2) 1 2
          false SortType.SORT_INDICES =
        (lanes_loop nth_element_by_sorting 6 scenario_matrix (topk_input_transform [2, 3] 1)
          (topk_output_transform [2, 3] ([2, 3].set 1 2) 1) ([2, 3].getD 1 0)
          (axis_stride_of [2, 3] 1) (axis_stride_of ([2, 3].set 1 2) 1) 2
          false SortType.SORT_INDICES (topk_input_transform [2, 3] 1).coords
          ((fun _ => (default, 0)), (fun _ => 0), (fun _ => 0))).map
            (fun st => (st.2.1, st.2.2)) ∧
      (∀ st, lanes_loop nth_element_by_sorting 6 scenario_matrix (topk_input_transform [2, 3] 1)
          (topk_output_transform [2, 3] ([2, 3].set 1 2) 1) ([2, 3].getD 1 0)
          (axis_stride_of [2, 3] 1) (axis_stride_of ([2, 3].set 1 2) 1) 2
          false SortType.SORT_INDICES [] st = some st) ∧
      (∀ c rest st, lanes_loop nth_element_by_sorting 6 scenario_matrix (topk_input_transform [2, 3] 1)
          (topk_output_transform [2, 3] ([2, 3].set 1 2) 1) ([2, 3].getD 1 0)
          (axis_stride_of [2, 3] 1) (axis_stride_of ([2, 3].set 1 2) 1) 2
          false SortType.SORT_INDICES (c :: rest) st =
        (lane_body nth_element_by_sorting 6 scenario_matrix (topk_input_transform [2, 3] 1)
          (topk_output_transform [2, 3] ([2, 3].set 1 2) 1) ([2, 3].getD 1 0)
          (axis_stride_of [2, 3] 1) (axis_stride_of ([2, 3].set 1 2) 1) 2
          false SortType.SORT_INDICES st c).bind
          (fun st1 => lanes_loop nth_element_by_sorting 6 scenario_matrix (topk_input_transform [2, 3] 1)
            (topk_output_transform [2, 3] ([2, 3].set 1 2) 1)
            ([2, 3].getD 1 0) (axis_stride_of [2, 3] 1)
            (axis_stride_of ([2, 3].set 1 2) 1) 2 false SortType.SORT_INDICES rest st1))) ∧
    ((all_positions (topk_input_transform [2, 3] 1).coords
          (topk_input_transform [2, 3] 1) ([2, 3].getD 1 0)
          (axis_stride_of [2, 3] 1)).Perm (List.range [2, 3].prod) ∧
      ∀ c ∈ (topk_input_transform [2, 3] 1).coords, ∀ (w : Nat → Nat × Nat) (i : Nat),
        i < [2, 3].getD 1 0 →
        gather scenario_matrix (axis_stride_of [2, 3] 1) ([2, 3].getD 1 0)
            ((topk_input_transform [2, 3] 1).index c) w i =
          (scenario_matrix ((topk_input_transform [2, 3] 1).index c +
            i * axis_stride_of [2, 3] 1), i)) ∧
    ((all_positions (topk_input_transform [2, 3] 1).coords
          (topk_output_transform [2, 3] ([2, 3].set 1 2) 1) 2
          (axis_stride_of ([2, 3].set 1 2) 1)).Perm
        (List.range ([2, 3].set 1 2).prod) ∧
      ∀ c ∈ (topk_input_transform [2, 3] 1).coords,
        ∀ (ws : Nat → Nat × Nat) (oi : Nat → Nat) (ov : Nat → Nat),
        (∀ j, j < 2 →
          (write_out 2 (axis_stride_of ([2, 3].set 1 2) 1) ws
              ((topk_output_transform [2, 3] ([2, 3].set 1 2) 1).index c) oi ov).1
            ((topk_output_transform [2, 3] ([2, 3].set 1 2) 1).index c +
              j * axis_stride_of ([2, 3].set 1 2) 1) = (ws j).2 ∧
          (write_out 2 (axis_stride_of ([2, 3].set 1 2) 1) ws
              ((topk_output_transform [2, 3] ([2, 3].set 1 2) 1).index c) oi ov).2
            ((topk_output_transform [2, 3] ([2, 3].set 1 2) 1).index c +
              j * axis_stride_of ([2, 3].set 1 2) 1) = (ws j).1) ∧
        (∀ p, p ∉ lane_positions 2 (axis_stride_of ([2, 3].set 1 2) 1)
              ((topk_output_transform [2, 3] ([2, 3].set 1 2) 1).index c) →
          (write_out 2 (axis_stride_of ([2, 3].set 1 2) 1) ws
              ((topk_output_transform [2, 3] ([2, 3].set 1 2) 1).index c) oi ov).1 p
            = oi p ∧
          (write_out 2 (axis_stride_of ([2, 3].set 1 2) 1) ws
              ((topk_output_transform [2, 3] ([2, 3].set 1 2) 1).index c) oi ov).2 p
            = ov p)) ∧
    (∃ oi ov, topk nth_element_by_sorting 6 scenario_matrix (fun _ => 0) (fun _ => 0) [2, 3] ([2, 3].set 1 2)
        1 2 false SortType.SORT_INDICES = some (oi, ov) ∧
      (∀ c ∈ (topk_input_transform [2, 3] 1).coords, ∃ w ws,
        select_and_sort nth_element_by_sorting 6 ([2, 3].getD 1 0) 2 false SortType.SORT_INDICES
          (gather scenario_matrix (axis_stride_of [2, 3] 1) ([2, 3].getD 1 0)
            ((topk_input_transform [2, 3] 1).index c) w) = some ws ∧
        ∀ j, j < 2 →
          oi ((topk_output_transform [2, 3] ([2, 3].set 1 2) 1).index c +
            j * axis_stride_of ([2, 3].set 1 2) 1) = (ws j).2 ∧
          ov ((topk_output_transform [2, 3] ([2, 3].set 1 2) 1).index c +
            j * axis_stride_of ([2, 3].set 1 2) 1) = (ws j).1) ∧
      (∀ p, ([2, 3].set 1 2).prod ≤ p → oi p = (fun _ => 0) p ∧ ov p = (fun _ => 0) p))) ∧
    all_positions (topk_input_transform [2, 3] 1).coords (topk_input_transform [2, 3] 1)
      ([2, 3].getD 1 0) (axis_stride_of [2, 3] 1) = [0, 1, 2, 3, 4, 5] ∧
    all_positions (topk_input_transform [2, 3] 1).coords
      (topk_output_transform [2, 3] ([2, 3].set 1 2) 1) 2
      (axis_stride_of ([2, 3].set 1 2) 1) = [0, 1, 2, 3] ∧
    outputs 4 (topk nth_element_by_sorting 6 scenario_matrix (fun _ => 0) (fun _ => 0) [2, 3]
      ([2, 3].set 1 2) 1 2 false SortType.SORT_INDICES) = some ([2, 0, 2, 1], [2, 1, 4, 0]) :=
  ⟨⟨nth_element_by_sorting_post, by decide, by decide, by decide⟩,
    C10_lanes_partition_buffers nth_element_by_sorting nth_element_by_sorting_post
      scenario_matrix (fun _ => 0) (fun _ => 0) [2, 3] 1 2 false SortType.SORT_INDICES
      (by decide) (by decide) 6 (by decide),
    by decide, by decide, by decide⟩

end PartitionClaim

end TopK
